import Mathlib

set_option maxHeartbeats 1000000

/-!
Shallow embedding of the idisposable library (src/src/ts/index.ts).

JavaScript values are modelled deeply enough for the dispatch engines:
primitives, null/undefined, and references into a fixed heap of
objects/functions.  Method calls are modelled by a behaviour record
(return value plus optional thrown error id); every invocation is logged
into a world trace so that claims about "capability invoked at most once"
become statements about the trace.  Thenables are modelled with native
promise timing: a callback registered with then runs only after the
synchronous scan of the registering call has finished.  Error values are
identities (Nat); the symErrorIgnored once-flag is the membership of that
identity in the world flag list.
-/

namespace IDisposableModel

/-- Error identity: models the reference identity of a thrown error value. -/
abbrev Err := Nat

/-- JavaScript values: undefined, null, booleans, numbers, and references
to heap objects or functions. -/
inductive JSVal where
  | vundef
  | vnull
  | vbool (b : Bool)
  | vnum (n : Nat)
  | ref (id : Nat)
  deriving DecidableEq

/-- JavaScript truthiness of a modelled value. -/
def truthy : JSVal → Bool
  | .vundef => false
  | .vnull => false
  | .vbool b => b
  | .vnum n => n != 0
  | .ref _ => true

/-- Behaviour of invoking a modelled method or function: optionally throws
an error identity, otherwise returns the given value. -/
structure MBeh where
  thr : Option Err := none
  ret : JSVal := .vundef
  deriving DecidableEq

/-- A property slot of an object: absent, a plain (non-function) value, or a
function with a declared arity (number of declared parameters) and a
behaviour. -/
inductive JSProp where
  | absent
  | val (v : JSVal)
  | fn (arity : Nat) (beh : MBeh)
  deriving DecidableEq

/-- Settlement of a native promise: fulfilled with a value or rejected with
an error identity. -/
inductive Settle where
  | sok (v : JSVal)
  | serr (e : Err)
  deriving DecidableEq

/-- A heap object (or function).  `call = some b` means the value has
typeof function and invoking it runs behaviour `b`.  `thenP = some s`
means the value has a callable `then` property behaving like a native
promise that settles to `s`.  `iterP = some l` means the value has a
callable `Symbol.iterator` property yielding the elements of `l`. -/
structure JSObj where
  call : Option MBeh := none
  isDisposedP : JSProp := .absent
  disposeP : JSProp := .absent
  destroyP : JSProp := .absent
  deleteP : JSProp := .absent
  closeP : JSProp := .absent
  thenP : Option Settle := none
  iterP : Option (List JSVal) := none
  deriving DecidableEq

/-- The heap: object `ref id` denotes `h.getD id {}`. -/
abbrev Heap := List JSObj

/-- Look up a heap object; a dangling reference denotes an empty object
(no capabilities), which every engine skips. -/
def getObj (h : Heap) (id : Nat) : JSObj := h.getD id {}

/-- The identity of an object or function value:
`some id` exactly when `typeof v` is `function` or a non-null `object`. -/
def refId? : JSVal → Option Nat
  | .ref id => some id
  | _ => none

/-- The four recognized release capabilities. -/
inductive Cap where
  | cdispose
  | cdestroy
  | cdelete
  | cclose
  deriving DecidableEq

/-- Observable events of a run.  `capCall` is the invocation of a release
capability on the object with the given identity, `checkCall` an
invocation of an `isDisposed()` method, `factoryCall` an invocation of a
function candidate, `thenReg` the registration of callbacks on a pending
candidate.  The `thr` component records the error thrown by the
invocation, if any. -/
inductive Event where
  | capCall (id : Nat) (c : Cap) (thr : Option Err)
  | checkCall (id : Nat) (thr : Option Err)
  | factoryCall (id : Nat) (thr : Option Err)
  | thenReg (id : Nat)
  deriving DecidableEq

/-- The mutable world of a run: the invocation trace, the errors carrying
the symErrorIgnored once-flag, the errors delivered to the configured
onIgnoredError channel (in delivery order), and whether onIgnoredError is
configured to something other than the default no-op. -/
structure World where
  trace : List Event := []
  flagged : List Err := []
  channel : List Err := []
  channelSet : Bool := true
  deriving DecidableEq

/-- Append one event to the trace. -/
def pushEvt (w : World) (e : Event) : World :=
  { w with trace := w.trace ++ [e] }

/-- IDisposable.ignoreError (index.ts lines 461-472): when a callback is
configured and the error does not yet carry the once-flag, deliver it to
the channel and set the flag.  Errors are modelled as non-null object
identities, and the configured callback is modelled as non-throwing. -/
def ignoreErrorRun (w : World) (e : Err) : World :=
  if w.channelSet then
    if e ∈ w.flagged then w
    else { w with channel := w.channel ++ [e], flagged := e :: w.flagged }
  else w

/-- IDisposable.isDisposed (index.ts lines 117-126): true for null and
undefined; otherwise read the isDisposed property; when truthy, return
true unless it is a function, in which case invoke it and coerce the
result to boolean.  The invocation may throw, which propagates. -/
def isDisposedRun (h : Heap) (w : World) (v : JSVal) : Except Err Bool × World :=
  match v with
  | .vnull => (.ok true, w)
  | .vundef => (.ok true, w)
  | .ref id =>
    match (getObj h id).isDisposedP with
    | .absent => (.ok false, w)
    | .val pv => if truthy pv then (.ok true, w) else (.ok false, w)
    | .fn _ beh =>
      let w1 := pushEvt w (.checkCall id beh.thr)
      match beh.thr with
      | some e => (.error e, w1)
      | none => (.ok (truthy beh.ret), w1)
  | _ => (.ok false, w)

/-- The dispatch shape of a candidate, as decided by the branch chains of
the engines. -/
inductive Shape where
  | release (c : Cap) (b : MBeh)
  | sequenceS (l : List JSVal)
  | factoryS (b : MBeh)
  | pendingS (s : Settle)
  | inert
  deriving DecidableEq

/-- The shared release-capability probe of all four engines (first four
branches of index.ts lines 183-190, 240-247, 329-336 and 393-400):
a callable dispose, else a callable destroy, else a callable delete whose
declared parameter count is zero, else a callable close. -/
def releaseCap? (o : JSObj) : Option (Cap × MBeh) :=
  match o.disposeP with
  | .fn _ b => some (.cdispose, b)
  | _ =>
    match o.destroyP with
    | .fn _ b => some (.cdestroy, b)
    | _ =>
      match o.deleteP with
      | .fn 0 b => some (.cdelete, b)
      | _ =>
        match o.closeP with
        | .fn _ b => some (.cclose, b)
        | _ => none

/-- Branch chain of the synchronous engines, dispose (index.ts lines
183-200) and tryDispose (lines 240-256): the release capabilities, then
Symbol.iterator, then callable, then thenable. -/
def classifySyncD (o : JSObj) : Shape :=
  match releaseCap? o with
  | some (c, b) => .release c b
  | none =>
    match o.iterP with
    | some l => .sequenceS l
    | none =>
      match o.call with
      | some b => .factoryS b
      | none =>
        match o.thenP with
        | some s => .pendingS s
        | none => .inert

/-- Branch chain of the asynchronous engines, disposeAsync (index.ts lines
329-345) and tryDisposeAsync (lines 393-409): the release capabilities,
then thenable, then Symbol.iterator, then callable. -/
def classifyAsyncD (o : JSObj) : Shape :=
  match releaseCap? o with
  | some (c, b) => .release c b
  | none =>
    match o.thenP with
    | some s => .pendingS s
    | none =>
      match o.iterP with
      | some l => .sequenceS l
      | none =>
        match o.call with
        | some b => .factoryS b
        | none => .inert

/-- Modelled from the words of the spec (claim C2): resolution order is
dispose, destroy, delete (only when its declared required-argument count
is zero), close, then pending (a then capability), then sequence
(iterable), then factory (callable); the first matching shape wins. -/
def classifySpec (o : JSObj) : Shape :=
  match releaseCap? o with
  | some (c, b) => .release c b
  | none =>
    match o.thenP with
    | some s => .pendingS s
    | none =>
      match o.iterP with
      | some l => .sequenceS l
      | none =>
        match o.call with
        | some b => .factoryS b
        | none => .inert

/-- The enqueue closure shared by all four engines (index.ts lines 165-169,
220-224, 310-314, 374-378): accept an item only when it is a function or a
non-null object, is not yet in the visited set, and is not disposed.  The
isDisposed probe may invoke a method and may throw, which propagates to
the enclosing scan. -/
def enqueueOne (h : Heap) (seen : List Nat) (w : World) (item : JSVal) :
    Except Err (Option JSVal) × World :=
  match refId? item with
  | none => (.ok none, w)
  | some id =>
    if id ∈ seen then (.ok none, w)
    else
      match isDisposedRun h w item with
      | (.error e, w1) => (.error e, w1)
      | (.ok true, w1) => (.ok none, w1)
      | (.ok false, w1) => (.ok (some item), w1)

/-- Run enqueue over the elements yielded by a sequence, in order.  On a
throw the items accepted so far stay enqueued (they were already pushed)
and the error is reported with them. -/
def enqueueList (h : Heap) (seen : List Nat) (w : World) :
    List JSVal → List JSVal × Option Err × World
  | [] => ([], none, w)
  | item :: rest =>
    match enqueueOne h seen w item with
    | (.error e, w1) => ([], some e, w1)
    | (.ok none, w1) => enqueueList h seen w1 rest
    | (.ok (some v), w1) =>
      match enqueueList h seen w1 rest with
      | (acc, er, w2) => (v :: acc, er, w2)

/-- The then-property of a capability result, when the result passes the
object-with-callable-then check of index.ts lines 257, 346 and 410
(typeof object, non-null, callable then). -/
def resultThen? (h : Heap) (v : JSVal) : Option Settle :=
  match refId? v with
  | some id =>
    match (getObj h id).call with
    | some _ => none
    | none => (getObj h id).thenP
  | none => none

/-- A pending completion aggregated by the asynchronous engines:
either the thenable result of a release capability, or the promise
produced by registering the enqueue callback on a pending candidate. -/
inductive ATask where
  | fromResult (s : Settle)
  | fromThen (s : Settle)
  deriving DecidableEq

/-- The join phase of tryDisposeAsync: every aggregated completion was
wrapped with the best-effort handlers (index.ts lines 402 and 411), so a
rejection or an error thrown by the deferred enqueue callback is routed
to ignoreError; a fulfilled pending candidate has its resolved value run
through enqueue, whose push lands in the already finished scan queue. -/
def asyncJoinT (h : Heap) (seen : List Nat) : List ATask → World → World
  | [], w => w
  | .fromResult s :: rest, w =>
    match s with
    | .serr e => asyncJoinT h seen rest (ignoreErrorRun w e)
    | .sok _ => asyncJoinT h seen rest w
  | .fromThen s :: rest, w =>
    match s with
    | .serr e => asyncJoinT h seen rest (ignoreErrorRun w e)
    | .sok v =>
      match enqueueOne h seen w v with
      | (.error e1, w1) => asyncJoinT h seen rest (ignoreErrorRun w1 e1)
      | (.ok _, w1) => asyncJoinT h seen rest w1

/-- Scan loop of IDisposable.tryDisposeAsync (index.ts lines 379-416):
per-candidate try/catch routes any throw to ignoreError and continues;
dispatch order is the async chain; a pending candidate registers the
enqueue/ignoreError pair and its settlement joins the aggregation set.
The seen-before-type check order of the source is immaterial here because
only object and function identities are ever added to the visited set. -/
def tryDisposeAsyncGo (h : Heap) : Nat → List JSVal → List Nat → List ATask → World →
    List Nat × List ATask × World
  | 0, _, seen, tasks, w => (seen, tasks, w)
  | _ + 1, [], seen, tasks, w => (seen, tasks, w)
  | fuel + 1, inst :: rest, seen, tasks, w =>
    match refId? inst with
    | none => tryDisposeAsyncGo h fuel rest seen tasks w
    | some id =>
      if id ∈ seen then tryDisposeAsyncGo h fuel rest seen tasks w
      else
        let seen1 := id :: seen
        match isDisposedRun h w inst with
        | (.error e, w1) => tryDisposeAsyncGo h fuel rest seen1 tasks (ignoreErrorRun w1 e)
        | (.ok true, w1) => tryDisposeAsyncGo h fuel rest seen1 tasks w1
        | (.ok false, w1) =>
          match classifyAsyncD (getObj h id) with
          | .release c b =>
            let w2 := pushEvt w1 (.capCall id c b.thr)
            match b.thr with
            | some e => tryDisposeAsyncGo h fuel rest seen1 tasks (ignoreErrorRun w2 e)
            | none =>
              match resultThen? h b.ret with
              | some s => tryDisposeAsyncGo h fuel rest seen1 (tasks ++ [.fromResult s]) w2
              | none => tryDisposeAsyncGo h fuel rest seen1 tasks w2
          | .pendingS s =>
            let w2 := pushEvt w1 (.thenReg id)
            tryDisposeAsyncGo h fuel rest seen1 (tasks ++ [.fromThen s]) w2
          | .sequenceS l =>
            match enqueueList h seen1 w1 l with
            | (acc, some e, w2) => tryDisposeAsyncGo h fuel (rest ++ acc) seen1 tasks (ignoreErrorRun w2 e)
            | (acc, none, w2) => tryDisposeAsyncGo h fuel (rest ++ acc) seen1 tasks w2
          | .factoryS b =>
            let w2 := pushEvt w1 (.factoryCall id b.thr)
            match b.thr with
            | some e => tryDisposeAsyncGo h fuel rest seen1 tasks (ignoreErrorRun w2 e)
            | none =>
              match enqueueOne h seen1 w2 b.ret with
              | (.error e, w3) => tryDisposeAsyncGo h fuel rest seen1 tasks (ignoreErrorRun w3 e)
              | (.ok none, w3) => tryDisposeAsyncGo h fuel rest seen1 tasks w3
              | (.ok (some v), w3) => tryDisposeAsyncGo h fuel (rest ++ [v]) seen1 tasks w3
          | .inert => tryDisposeAsyncGo h fuel rest seen1 tasks w1

/-- IDisposable.tryDisposeAsync (index.ts lines 369-421): scan, then await
the aggregated completions; the surrounding try/catch makes the returned
promise always fulfil.  The post-scan callback activity is collapsed into
the same world. -/
def tryDisposeAsyncRun (h : Heap) (fuel : Nat) (instances : List JSVal) (w : World) :
    Except Err Unit × World :=
  match tryDisposeAsyncGo h fuel instances [] [] w with
  | (seen, tasks, w1) => (.ok (), asyncJoinT h seen tasks w1)

/-- Scan loop of IDisposable.dispose (index.ts lines 163-202): fail-fast,
so a throw from the isDisposed probe, a release capability, a factory, or
a nested enqueue propagates immediately and ends the scan.  Capability
results are discarded.  A pending candidate is detached to
tryDisposeAsync whose activity (synchronous scan prefix plus later
microtasks) is collapsed into the same world. -/
def disposeGo (h : Heap) : Nat → List JSVal → List Nat → World →
    Except Err Unit × List Nat × World
  | 0, _, seen, w => (.ok (), seen, w)
  | _ + 1, [], seen, w => (.ok (), seen, w)
  | fuel + 1, inst :: rest, seen, w =>
    match refId? inst with
    | none => disposeGo h fuel rest seen w
    | some id =>
      if id ∈ seen then disposeGo h fuel rest seen w
      else
        let seen1 := id :: seen
        match isDisposedRun h w inst with
        | (.error e, w1) => (.error e, seen1, w1)
        | (.ok true, w1) => disposeGo h fuel rest seen1 w1
        | (.ok false, w1) =>
          match classifySyncD (getObj h id) with
          | .release c b =>
            let w2 := pushEvt w1 (.capCall id c b.thr)
            match b.thr with
            | some e => (.error e, seen1, w2)
            | none => disposeGo h fuel rest seen1 w2
          | .sequenceS l =>
            match enqueueList h seen1 w1 l with
            | (_, some e, w2) => (.error e, seen1, w2)
            | (acc, none, w2) => disposeGo h fuel (rest ++ acc) seen1 w2
          | .factoryS b =>
            let w2 := pushEvt w1 (.factoryCall id b.thr)
            match b.thr with
            | some e => (.error e, seen1, w2)
            | none =>
              match enqueueOne h seen1 w2 b.ret with
              | (.error e, w3) => (.error e, seen1, w3)
              | (.ok none, w3) => disposeGo h fuel rest seen1 w3
              | (.ok (some v), w3) => disposeGo h fuel (rest ++ [v]) seen1 w3
          | .pendingS _ =>
            match tryDisposeAsyncRun h fuel [inst] w1 with
            | (_, w2) => disposeGo h fuel rest seen1 w2
          | .inert => disposeGo h fuel rest seen1 w1

/-- IDisposable.dispose (index.ts lines 163-202). -/
def disposeRun (h : Heap) (fuel : Nat) (instances : List JSVal) (w : World) :
    Except Err Unit × World :=
  match disposeGo h fuel instances [] w with
  | (r, _, w1) => (r, w1)

/-- Process the deferred settlements registered by tryDispose via
result.then(empty, ignoreError) (index.ts line 258): rejections go to the
ignoreError channel after the scan. -/
def runDefers : List Settle → World → World
  | [], w => w
  | .sok _ :: rest, w => runDefers rest w
  | .serr e :: rest, w => runDefers rest (ignoreErrorRun w e)

/-- Scan loop of IDisposable.tryDispose (index.ts lines 218-264): each
candidate is processed inside try/catch, so every throw is routed to
ignoreError and the scan continues with the next queued candidate; a
thenable capability result gets a best-effort rejection handler attached
(collected in defers); a pending candidate is detached to
tryDisposeAsync. -/
def tryDisposeGo (h : Heap) : Nat → List JSVal → List Nat → List Settle → World →
    Except Err Unit × List Nat × World
  | 0, _, seen, defers, w => (.ok (), seen, runDefers defers w)
  | _ + 1, [], seen, defers, w => (.ok (), seen, runDefers defers w)
  | fuel + 1, inst :: rest, seen, defers, w =>
    match refId? inst with
    | none => tryDisposeGo h fuel rest seen defers w
    | some id =>
      if id ∈ seen then tryDisposeGo h fuel rest seen defers w
      else
        let seen1 := id :: seen
        match isDisposedRun h w inst with
        | (.error e, w1) => tryDisposeGo h fuel rest seen1 defers (ignoreErrorRun w1 e)
        | (.ok true, w1) => tryDisposeGo h fuel rest seen1 defers w1
        | (.ok false, w1) =>
          match classifySyncD (getObj h id) with
          | .release c b =>
            let w2 := pushEvt w1 (.capCall id c b.thr)
            match b.thr with
            | some e => tryDisposeGo h fuel rest seen1 defers (ignoreErrorRun w2 e)
            | none =>
              match resultThen? h b.ret with
              | some s => tryDisposeGo h fuel rest seen1 (defers ++ [s]) w2
              | none => tryDisposeGo h fuel rest seen1 defers w2
          | .sequenceS l =>
            match enqueueList h seen1 w1 l with
            | (acc, some e, w2) => tryDisposeGo h fuel (rest ++ acc) seen1 defers (ignoreErrorRun w2 e)
            | (acc, none, w2) => tryDisposeGo h fuel (rest ++ acc) seen1 defers w2
          | .factoryS b =>
            let w2 := pushEvt w1 (.factoryCall id b.thr)
            match b.thr with
            | some e => tryDisposeGo h fuel rest seen1 defers (ignoreErrorRun w2 e)
            | none =>
              match enqueueOne h seen1 w2 b.ret with
              | (.error e, w3) => tryDisposeGo h fuel rest seen1 defers (ignoreErrorRun w3 e)
              | (.ok none, w3) => tryDisposeGo h fuel rest seen1 defers w3
              | (.ok (some v), w3) => tryDisposeGo h fuel (rest ++ [v]) seen1 defers w3
          | .pendingS _ =>
            match tryDisposeAsyncRun h fuel [inst] w1 with
            | (_, w2) => tryDisposeGo h fuel rest seen1 defers w2
          | .inert => tryDisposeGo h fuel rest seen1 defers w1

/-- IDisposable.tryDispose (index.ts lines 218-264). -/
def tryDisposeRun (h : Heap) (fuel : Nat) (instances : List JSVal) (w : World) :
    Except Err Unit × World :=
  match tryDisposeGo h fuel instances [] [] w with
  | (r, _, w1) => (r, w1)

/-- The await Promise.all join of disposeAsync (index.ts line 351): every
aggregated completion settles; the first rejection in aggregation order
becomes the rejection of the whole call, while the enqueue callbacks of
fulfilled pending candidates still run, pushing the resolved values into
the finished scan queue. -/
def asyncJoinD (h : Heap) (seen : List Nat) : List ATask → World → Option Err × World
  | [], w => (none, w)
  | .fromResult s :: rest, w =>
    match asyncJoinD h seen rest w with
    | (e2, w2) =>
      match s with
      | .serr e => (some e, w2)
      | .sok _ => (e2, w2)
  | .fromThen s :: rest, w =>
    match s with
    | .serr e =>
      match asyncJoinD h seen rest w with
      | (_, w2) => (some e, w2)
    | .sok v =>
      match enqueueOne h seen w v with
      | (.error e1, w1) =>
        match asyncJoinD h seen rest w1 with
        | (_, w2) => (some e1, w2)
      | (.ok _, w1) => asyncJoinD h seen rest w1

/-- Scan loop of IDisposable.disposeAsync (index.ts lines 316-349):
fail-fast like dispose, but with the async branch chain, and thenable
capability results plus pending-candidate registrations are aggregated
for the final join. -/
def disposeAsyncGo (h : Heap) : Nat → List JSVal → List Nat → List ATask → World →
    Except Err Unit × List Nat × List ATask × World
  | 0, _, seen, tasks, w => (.ok (), seen, tasks, w)
  | _ + 1, [], seen, tasks, w => (.ok (), seen, tasks, w)
  | fuel + 1, inst :: rest, seen, tasks, w =>
    match refId? inst with
    | none => disposeAsyncGo h fuel rest seen tasks w
    | some id =>
      if id ∈ seen then disposeAsyncGo h fuel rest seen tasks w
      else
        let seen1 := id :: seen
        match isDisposedRun h w inst with
        | (.error e, w1) => (.error e, seen1, tasks, w1)
        | (.ok true, w1) => disposeAsyncGo h fuel rest seen1 tasks w1
        | (.ok false, w1) =>
          match classifyAsyncD (getObj h id) with
          | .release c b =>
            let w2 := pushEvt w1 (.capCall id c b.thr)
            match b.thr with
            | some e => (.error e, seen1, tasks, w2)
            | none =>
              match resultThen? h b.ret with
              | some s => disposeAsyncGo h fuel rest seen1 (tasks ++ [.fromResult s]) w2
              | none => disposeAsyncGo h fuel rest seen1 tasks w2
          | .pendingS s =>
            let w2 := pushEvt w1 (.thenReg id)
            disposeAsyncGo h fuel rest seen1 (tasks ++ [.fromThen s]) w2
          | .sequenceS l =>
            match enqueueList h seen1 w1 l with
            | (_, some e, w2) => (.error e, seen1, tasks, w2)
            | (acc, none, w2) => disposeAsyncGo h fuel (rest ++ acc) seen1 tasks w2
          | .factoryS b =>
            let w2 := pushEvt w1 (.factoryCall id b.thr)
            match b.thr with
            | some e => (.error e, seen1, tasks, w2)
            | none =>
              match enqueueOne h seen1 w2 b.ret with
              | (.error e, w3) => (.error e, seen1, tasks, w3)
              | (.ok none, w3) => disposeAsyncGo h fuel rest seen1 tasks w3
              | (.ok (some v), w3) => disposeAsyncGo h fuel (rest ++ [v]) seen1 tasks w3
          | .inert => disposeAsyncGo h fuel rest seen1 tasks w1

/-- IDisposable.disposeAsync (index.ts lines 306-352): a throw during the
scan rejects the returned promise immediately; otherwise the promise
settles with the join of the aggregated completions. -/
def disposeAsyncRun (h : Heap) (fuel : Nat) (instances : List JSVal) (w : World) :
    Except Err Unit × World :=
  match disposeAsyncGo h fuel instances [] [] w with
  | (.error e, _, _, w1) => (.error e, w1)
  | (.ok _, seen, tasks, w1) =>
    match asyncJoinD h seen tasks w1 with
    | (some e, w2) => (.error e, w2)
    | (none, w2) => (.ok (), w2)

/-- IDisposable.using (index.ts lines 276-289): run the functor (modelled
by its outcome); on normal return dispose fail-fast and return the
result, the catch block covering a release throw as well; on a throw from
functor or fail-fast release, tryDispose best-effort and rethrow that
error. -/
def usingRun (h : Heap) (fuel : Nat) (inst : JSVal) (functor : Except Err JSVal) (w : World) :
    Except Err JSVal × World :=
  match functor with
  | .ok v =>
    match disposeRun h fuel [inst] w with
    | (.ok _, w1) => (.ok v, w1)
    | (.error e, w1) =>
      match tryDisposeRun h fuel [inst] w1 with
      | (_, w2) => (.error e, w2)
  | .error e =>
    match tryDisposeRun h fuel [inst] w with
    | (_, w1) => (.error e, w1)

/-- Awaiting a value: a thenable (modelled with native promise settlement,
one level deep) yields its settlement, any other value passes through. -/
def awaitVal (h : Heap) (v : JSVal) : Except Err JSVal :=
  match refId? v with
  | some id =>
    match (getObj h id).thenP with
    | some (.sok r) => .ok r
    | some (.serr e) => .error e
    | none => .ok v
  | none => .ok v

/-- The try block of IDisposable.usingAsync (index.ts lines 437-448):
await the candidate, invoke and await it if it is callable, then run the
functor (modelled by its settled outcome).  Returns the outcome together
with the value bound to the instance variable when the block exits, which
is what the finally block disposes. -/
def usingAsyncBody (h : Heap) (inst0 : JSVal) (functor : Except Err JSVal) (w : World) :
    Except Err JSVal × JSVal × World :=
  match awaitVal h inst0 with
  | .error e => (.error e, inst0, w)
  | .ok i1 =>
    match refId? i1 with
    | some id =>
      match (getObj h id).call with
      | some b =>
        let w1 := pushEvt w (.factoryCall id b.thr)
        match b.thr with
        | some e => (.error e, i1, w1)
        | none =>
          match awaitVal h b.ret with
          | .error e => (.error e, i1, w1)
          | .ok i2 =>
            match functor with
            | .ok v => (.ok v, i2, w1)
            | .error e => (.error e, i2, w1)
      | none =>
        match functor with
        | .ok v => (.ok v, i1, w)
        | .error e => (.error e, i1, w)
    | none =>
      match functor with
      | .ok v => (.ok v, i1, w)
      | .error e => (.error e, i1, w)

/-- IDisposable.usingAsync (index.ts lines 433-452): the finally block
awaits the fail-fast disposeAsync of the instance on every path; per the
semantics of finally, a rejection of that release replaces the outcome of
the try block. -/
def usingAsyncRun (h : Heap) (fuel : Nat) (inst0 : JSVal) (functor : Except Err JSVal) (w : World) :
    Except Err JSVal × World :=
  match usingAsyncBody h inst0 functor w with
  | (r, iFin, w1) =>
    match disposeAsyncRun h fuel [iFin] w1 with
    | (.error e2, w2) => (.error e2, w2)
    | (.ok _, w2) => (r, w2)

/-- The initial world: empty trace, no flagged errors, empty channel, and
the onIgnoredError callback configured. -/
def w0 : World := {}

/-- Whether an event is the invocation of a release capability on the
object with the given identity. -/
def isRelFor (id : Nat) : Event → Bool
  | .capCall j _ _ => j == id
  | _ => false

/-- How many times a release capability was invoked on the given identity
in a trace. -/
def relCount (t : List Event) (id : Nat) : Nat := (t.filter (isRelFor id)).length

/-- Whether an event is any release-capability invocation. -/
def isCapEvt : Event → Bool
  | .capCall _ _ _ => true
  | _ => false

/-- A trace fragment containing no release-capability invocation that
threw. -/
def CapThrFree (t : List Event) : Prop :=
  ∀ id c e, Event.capCall id c (some e) ∉ t

/-- The at-most-once invariant tying the trace to the visited set: an
identity outside the visited set has no release invocation yet, and one
inside it has at most one. -/
def RelInv (seen : List Nat) (t : List Event) : Prop :=
  ∀ id, (id ∈ seen → relCount t id ≤ 1) ∧ (id ∉ seen → relCount t id = 0)

/-- A candidate object reporting the released marker: an isDisposed
property that is a truthy non-function value, or an isDisposed method
whose invocation returns a truthy value without throwing. -/
def Released (o : JSObj) : Prop :=
  (∃ v, o.isDisposedP = .val v ∧ truthy v = true) ∨
  (∃ n b, o.isDisposedP = .fn n b ∧ b.thr = none ∧ truthy b.ret = true)

/-- Modelled from the words of claim C7: a value is disposed iff it is
nullish, or its isDisposed capability is the boolean true, or it exposes
a callable isDisposed() whose invocation returns a truthy value (without
throwing). -/
def isDisposedSpecClaim (h : Heap) (v : JSVal) : Bool :=
  match v with
  | .vnull => true
  | .vundef => true
  | .ref id =>
    match (getObj h id).isDisposedP with
    | .val (.vbool true) => true
    | .fn _ b => b.thr == none && truthy b.ret
    | _ => false
  | _ => false

/-- The amended form of claim C7: a truthy non-function isDisposed
property also counts as disposed, not only the boolean true. -/
def isDisposedSpecTruthy (h : Heap) (v : JSVal) : Bool :=
  match v with
  | .vnull => true
  | .vundef => true
  | .ref id =>
    match (getObj h id).isDisposedP with
    | .val pv => truthy pv
    | .fn _ b => b.thr == none && truthy b.ret
    | _ => false
  | _ => false

/-- The channel invariant of the best-effort error path: the channel has
no duplicate error identities and every delivered error carries the
once-flag. -/
def ChanInv (w : World) : Prop :=
  w.channel.Nodup ∧ ∀ e ∈ w.channel, e ∈ w.flagged

/-- Heap for the claim C1 scenario dispose of the sequence containing a,
the sequence containing a, and a again: identity 0 is the single
disposable a, identity 1 the outer sequence, identity 2 the inner
sequence. -/
def hC1 : Heap :=
  [ { disposeP := .fn 0 {} },
    { iterP := some [.ref 0, .ref 2, .ref 0] },
    { iterP := some [.ref 0] } ]

/-- An object exposing both an iterator and a then capability, where the
synchronous and the spec branch chains disagree. -/
def oC2 : JSObj := { thenP := some (.sok .vundef), iterP := some [] }

/-- Heap with two disposables where the first release capability throws
error 7 and the second succeeds. -/
def hC3 : Heap :=
  [ { disposeP := .fn 0 { thr := some 7 } },
    { disposeP := .fn 0 {} } ]

/-- Heap for the claim C5 scenario: identity 0 is the factory, identity 1
the sequence it returns, identity 2 the first disposable, identity 3 the
promise resolving to identity 4, the second disposable. -/
def hC5 : Heap :=
  [ { call := some { ret := .ref 1 } },
    { iterP := some [.ref 2, .ref 3] },
    { disposeP := .fn 0 {} },
    { thenP := some (.sok (.ref 4)) },
    { disposeP := .fn 0 {} } ]

/-- Heap for the claim C6 scenario: an object reporting isDisposed true
whose dispose would throw. -/
def hC6 : Heap := [ { isDisposedP := .val (.vbool true), disposeP := .fn 0 { thr := some 3 } } ]

/-- Heap for the claim C7 counterexample: an isDisposed property holding
the truthy non-boolean value 1. -/
def hC7 : Heap := [ { isDisposedP := .val (.vnum 1) } ]

/-- Heap with a single object whose dispose capability throws error 7,
used by the using and usingAsync claims. -/
def hC8 : Heap := [ { disposeP := .fn 0 { thr := some 7 } } ]

instance {ε α : Type} [DecidableEq ε] [DecidableEq α] : DecidableEq (Except ε α)
  | .ok a, .ok b =>
    if h : a = b then .isTrue (by rw [h]) else .isFalse (by intro hh; cases hh; exact h rfl)
  | .error a, .error b =>
    if h : a = b then .isTrue (by rw [h]) else .isFalse (by intro hh; cases hh; exact h rfl)
  | .ok _, .error _ => .isFalse (by intro hh; cases hh)
  | .error _, .ok _ => .isFalse (by intro hh; cases hh)

/-- A world transition that only appends events which are not
release-capability invocations, leaving channel and flag state
arbitrary. -/
def CapFreeExt (w w' : World) : Prop :=
  ∃ t, w'.trace = w.trace ++ t ∧ ∀ ev ∈ t, isCapEvt ev = false

/-- A world transition leaving channel and flagged state unchanged. -/
def SameChan (w w' : World) : Prop :=
  w'.channel = w.channel ∧ w'.flagged = w.flagged

/-- An event that is a throwing release-capability invocation. -/
def ThrCap (ev : Event) : Prop :=
  ∃ id c e, ev = Event.capCall id c (some e)

/-- Hypothesis for the amended claim C7: the isDisposed capability of the
value, when it is a method, does not throw. -/
def NoThrowCheck (h : Heap) (v : JSVal) : Prop :=
  ∀ id n b, v = .ref id → (getObj h id).isDisposedP = .fn n b → b.thr = none

/-- Modelled from the amended words of claim C2 for the synchronous
variants: after the release capabilities, the order is sequence, then
factory, then pending. -/
def classifySpecSyncAmended (o : JSObj) : Shape :=
  match releaseCap? o with
  | some (c, b) => .release c b
  | none =>
    match o.iterP with
    | some l => .sequenceS l
    | none =>
      match o.call with
      | some b => .factoryS b
      | none =>
        match o.thenP with
        | some s => .pendingS s
        | none => .inert

/-- Heap with a single object exposing both a dispose and a destroy
capability. -/
def hC2w : Heap := [ { disposeP := .fn 0 {}, destroyP := .fn 0 {} } ]

/-- Heap where identity 0 is a promise resolving to identity 1, a plain
disposable. -/
def hC9p : Heap := [ { thenP := some (.sok (.ref 1)) }, { disposeP := .fn 0 {} } ]

/-- Heap where identity 0 is a factory returning identity 1, a plain
disposable. -/
def hC9f : Heap := [ { call := some { ret := .ref 1 } }, { disposeP := .fn 0 {} } ]

/-! ### Lemmas about traces and elementary operations -/

theorem relCount_append (t1 t2 : List Event) (id : Nat) :
    relCount (t1 ++ t2) id = relCount t1 id + relCount t2 id := by
  simp [relCount, List.filter_append]

theorem isCapEvt_of_isRelFor {id : Nat} {ev : Event} (hrel : isRelFor id ev = true) :
    isCapEvt ev = true := by
  cases ev <;> simp [isRelFor, isCapEvt] at *

theorem capFreeExt_refl (w : World) : CapFreeExt w w := ⟨[], by simp, by simp⟩

theorem capFreeExt_trans {w1 w2 w3 : World} (h1 : CapFreeExt w1 w2) (h2 : CapFreeExt w2 w3) :
    CapFreeExt w1 w3 := by
  obtain ⟨t, ht, hf⟩ := h1
  obtain ⟨u, hu, hg⟩ := h2
  refine ⟨t ++ u, by simp [hu, ht], ?_⟩
  intro ev hev
  rcases List.mem_append.mp hev with hl | hr
  · exact hf ev hl
  · exact hg ev hr

theorem relCount_of_capFreeExt {w w' : World} (h : CapFreeExt w w') (id : Nat) :
    relCount w'.trace id = relCount w.trace id := by
  obtain ⟨t, ht, hf⟩ := h
  rw [ht, relCount_append]
  have : relCount t id = 0 := by
    simp only [relCount, List.length_eq_zero, List.filter_eq_nil_iff]
    intro ev hev hrel
    have := isCapEvt_of_isRelFor hrel
    rw [hf ev hev] at this
    exact Bool.false_ne_true this
  omega

theorem capThrFree_of_capFreeExt {w w' : World} (hfree : CapThrFree w.trace)
    (h : CapFreeExt w w') : CapThrFree w'.trace := by
  obtain ⟨t, ht, hf⟩ := h
  intro id c e hmem
  rw [ht] at hmem
  rcases List.mem_append.mp hmem with hl | hr
  · exact hfree id c e hl
  · have := hf _ hr
    simp [isCapEvt] at this

theorem pushEvt_capFreeExt {w : World} {ev : Event} (hev : isCapEvt ev = false) :
    CapFreeExt w (pushEvt w ev) := by
  refine ⟨[ev], rfl, ?_⟩
  intro e he
  rw [List.mem_singleton.mp he]
  exact hev

theorem pushEvt_sameChan (w : World) (ev : Event) : SameChan w (pushEvt w ev) := ⟨rfl, rfl⟩

theorem ignoreErrorRun_trace (w : World) (e : Err) :
    (ignoreErrorRun w e).trace = w.trace := by
  unfold ignoreErrorRun
  split <;> [skip; rfl]
  split <;> rfl

theorem ignoreErrorRun_capFreeExt (w : World) (e : Err) :
    CapFreeExt w (ignoreErrorRun w e) :=
  ⟨[], by simp [ignoreErrorRun_trace], by simp⟩

theorem ignoreErrorRun_chanInv {w : World} (hw : ChanInv w) (e : Err) :
    ChanInv (ignoreErrorRun w e) := by
  obtain ⟨hnd, hsub⟩ := hw
  unfold ignoreErrorRun
  split
  · split
    · exact ⟨hnd, hsub⟩
    · rename_i hset hnf
      constructor
      · refine List.Nodup.append hnd (List.nodup_singleton e) ?_
        intro x hx hy
        rw [List.mem_singleton.mp hy] at hx
        exact hnf (hsub e hx)
      · intro x hx
        rcases List.mem_append.mp hx with hl | hr
        · exact List.mem_cons_of_mem _ (hsub x hl)
        · rw [List.mem_singleton.mp hr]
          exact List.mem_cons_self _ _
  · exact ⟨hnd, hsub⟩

theorem sameChan_refl (w : World) : SameChan w w := ⟨rfl, rfl⟩

theorem sameChan_trans {w1 w2 w3 : World} (h1 : SameChan w1 w2) (h2 : SameChan w2 w3) :
    SameChan w1 w3 := ⟨h2.1.trans h1.1, h2.2.trans h1.2⟩

theorem chanInv_of_sameChan {w w' : World} (h : SameChan w w') (hw : ChanInv w) :
    ChanInv w' := by
  obtain ⟨hc, hf⟩ := h
  obtain ⟨hnd, hsub⟩ := hw
  refine ⟨hc ▸ hnd, ?_⟩
  intro e he
  rw [hc] at he
  rw [hf]
  exact hsub e he

theorem isDisposedRun_capFreeExt (h : Heap) (w : World) (v : JSVal) :
    CapFreeExt w (isDisposedRun h w v).2 := by
  cases v with
  | vundef => exact capFreeExt_refl w
  | vnull => exact capFreeExt_refl w
  | vbool b => exact capFreeExt_refl w
  | vnum n => exact capFreeExt_refl w
  | ref id =>
    simp only [isDisposedRun]
    split
    · exact capFreeExt_refl w
    · split
      · exact capFreeExt_refl w
      · exact capFreeExt_refl w
    · split
      · exact pushEvt_capFreeExt (by simp [isCapEvt])
      · exact pushEvt_capFreeExt (by simp [isCapEvt])

theorem isDisposedRun_sameChan (h : Heap) (w : World) (v : JSVal) :
    SameChan w (isDisposedRun h w v).2 := by
  cases v with
  | vundef => exact sameChan_refl w
  | vnull => exact sameChan_refl w
  | vbool b => exact sameChan_refl w
  | vnum n => exact sameChan_refl w
  | ref id =>
    simp only [isDisposedRun]
    split
    · exact sameChan_refl w
    · split
      · exact sameChan_refl w
      · exact sameChan_refl w
    · split
      · exact pushEvt_sameChan ..
      · exact pushEvt_sameChan ..

theorem enqueueOne_capFreeExt (h : Heap) (seen : List Nat) (w : World) (item : JSVal) :
    CapFreeExt w (enqueueOne h seen w item).2 := by
  unfold enqueueOne
  split
  · exact capFreeExt_refl w
  · split
    · exact capFreeExt_refl w
    · split
      · rename_i heq
        have := isDisposedRun_capFreeExt h w item
        rw [heq] at this
        exact this
      · rename_i heq
        have := isDisposedRun_capFreeExt h w item
        rw [heq] at this
        exact this
      · rename_i heq
        have := isDisposedRun_capFreeExt h w item
        rw [heq] at this
        exact this

theorem enqueueOne_sameChan (h : Heap) (seen : List Nat) (w : World) (item : JSVal) :
    SameChan w (enqueueOne h seen w item).2 := by
  unfold enqueueOne
  split
  · exact sameChan_refl w
  · split
    · exact sameChan_refl w
    · split <;>
        (rename_i heq
         have := isDisposedRun_sameChan h w item
         rw [heq] at this
         exact this)

theorem enqueueList_capFreeExt (h : Heap) (seen : List Nat) (w : World) (l : List JSVal) :
    CapFreeExt w (enqueueList h seen w l).2.2 := by
  induction l generalizing w with
  | nil => exact capFreeExt_refl w
  | cons item rest ih =>
    unfold enqueueList
    split
    · rename_i heq
      have := enqueueOne_capFreeExt h seen w item
      rw [heq] at this
      exact this
    · rename_i w1 heq
      have h1 := enqueueOne_capFreeExt h seen w item
      rw [heq] at h1
      exact capFreeExt_trans h1 (ih w1)
    · rename_i v w1 heq
      have h1 := enqueueOne_capFreeExt h seen w item
      rw [heq] at h1
      split
      rename_i acc er w2 heq2
      have h2 := ih w1
      rw [heq2] at h2
      exact capFreeExt_trans h1 h2

theorem enqueueList_sameChan (h : Heap) (seen : List Nat) (w : World) (l : List JSVal) :
    SameChan w (enqueueList h seen w l).2.2 := by
  induction l generalizing w with
  | nil => exact sameChan_refl w
  | cons item rest ih =>
    unfold enqueueList
    split
    · rename_i heq
      have := enqueueOne_sameChan h seen w item
      rw [heq] at this
      exact this
    · rename_i w1 heq
      have h1 := enqueueOne_sameChan h seen w item
      rw [heq] at h1
      exact sameChan_trans h1 (ih w1)
    · rename_i v w1 heq
      have h1 := enqueueOne_sameChan h seen w item
      rw [heq] at h1
      split
      rename_i acc er w2 heq2
      have h2 := ih w1
      rw [heq2] at h2
      exact sameChan_trans h1 h2

/-! ### Lemmas about the at-most-once invariant and the join phases -/

theorem relCount_singleton_cap (id j : Nat) (c : Cap) (thr : Option Err) :
    relCount [Event.capCall id c thr] j = if id = j then 1 else 0 := by
  by_cases hid : id = j <;> simp [relCount, isRelFor, hid]


theorem relInv_cons {seen : List Nat} {t : List Event} (hinv : RelInv seen t) (id : Nat) :
    RelInv (id :: seen) t := by
  intro j
  constructor
  · intro hj
    rcases List.mem_cons.mp hj with rfl | hj
    · by_cases hjs : j ∈ seen
      · exact (hinv j).1 hjs
      · rw [(hinv j).2 hjs]
        omega
    · exact (hinv j).1 hj
  · intro hj
    exact (hinv j).2 (fun hh => hj (List.mem_cons_of_mem _ hh))

theorem relInv_capFreeExt {seen : List Nat} {w w' : World} (hinv : RelInv seen w.trace)
    (hext : CapFreeExt w w') : RelInv seen w'.trace := by
  intro j
  rw [relCount_of_capFreeExt hext j]
  exact hinv j

theorem relInv_release {seen : List Nat} {t : List Event} (hinv : RelInv seen t)
    {id : Nat} (hid : id ∉ seen) (c : Cap) (thr : Option Err) :
    RelInv (id :: seen) (t ++ [Event.capCall id c thr]) := by
  intro j
  constructor
  · intro hmem
    rw [relCount_append, relCount_singleton_cap]
    rcases List.mem_cons.mp hmem with rfl | hj
    · rw [(hinv j).2 hid]
      simp
    · have h1 := (hinv j).1 hj
      have : ¬(id = j) := fun hh => hid (hh ▸ hj)
      rw [if_neg this]
      omega
  · intro hj
    have hji : ¬(j = id) := fun hh => hj (hh ▸ List.mem_cons_self _ _)
    have hjs : j ∉ seen := fun hh => hj (List.mem_cons_of_mem _ hh)
    rw [relCount_append, relCount_singleton_cap, (hinv j).2 hjs, if_neg (fun hh => hji hh.symm)]

theorem relInv_trace_bound {seen : List Nat} {t : List Event} (hinv : RelInv seen t) (id : Nat) :
    relCount t id ≤ 1 := by
  by_cases hid : id ∈ seen
  · exact (hinv id).1 hid
  · rw [(hinv id).2 hid]
    omega

theorem relInv_empty : RelInv [] [] := by
  intro j
  constructor
  · intro hj
    cases hj
  · intro _
    rfl

/-- When the synchronous branch chain classifies a candidate as pending,
so does the asynchronous chain: such a candidate has no release
capability, no iterator, is not callable, and has a then capability. -/
theorem classifySyncD_pendingS_async {o : JSObj} {s : Settle}
    (h : classifySyncD o = .pendingS s) : classifyAsyncD o = .pendingS s := by
  unfold classifySyncD at h
  unfold classifyAsyncD
  cases hrel : releaseCap? o with
  | some cb =>
    obtain ⟨c, b⟩ := cb
    rw [hrel] at h
    cases h
  | none =>
    rw [hrel] at h
    cases hiter : o.iterP with
    | some l =>
      rw [hiter] at h
      cases h
    | none =>
      rw [hiter] at h
      cases hcall : o.call with
      | some b =>
        rw [hcall] at h
        cases h
      | none =>
        rw [hcall] at h
        cases hthen : o.thenP with
        | none =>
          rw [hthen] at h
          cases h
        | some s2 =>
          rw [hthen] at h
          cases h
          rfl

theorem asyncJoinT_capFreeExt (h : Heap) (seen : List Nat) (tasks : List ATask) (w : World) :
    CapFreeExt w (asyncJoinT h seen tasks w) := by
  induction tasks generalizing w with
  | nil => exact capFreeExt_refl w
  | cons t rest ih =>
    cases t with
    | fromResult s =>
      cases s with
      | serr e =>
        simp only [asyncJoinT]
        exact capFreeExt_trans (ignoreErrorRun_capFreeExt w e) (ih _)
      | sok v =>
        simp only [asyncJoinT]
        exact ih _
    | fromThen s =>
      cases s with
      | serr e =>
        simp only [asyncJoinT]
        exact capFreeExt_trans (ignoreErrorRun_capFreeExt w e) (ih _)
      | sok v =>
        rcases heq : enqueueOne h seen w v with ⟨r, w1⟩
        have h1 := enqueueOne_capFreeExt h seen w v
        rw [heq] at h1
        cases r with
        | error e1 =>
          simp only [asyncJoinT, heq]
          exact capFreeExt_trans (capFreeExt_trans h1 (ignoreErrorRun_capFreeExt w1 e1)) (ih _)
        | ok o =>
          simp only [asyncJoinT, heq]
          exact capFreeExt_trans h1 (ih _)

theorem asyncJoinT_chanInv (h : Heap) (seen : List Nat) (tasks : List ATask) {w : World}
    (hw : ChanInv w) : ChanInv (asyncJoinT h seen tasks w) := by
  induction tasks generalizing w with
  | nil => exact hw
  | cons t rest ih =>
    cases t with
    | fromResult s =>
      cases s with
      | serr e =>
        simp only [asyncJoinT]
        exact ih (ignoreErrorRun_chanInv hw e)
      | sok v =>
        simp only [asyncJoinT]
        exact ih hw
    | fromThen s =>
      cases s with
      | serr e =>
        simp only [asyncJoinT]
        exact ih (ignoreErrorRun_chanInv hw e)
      | sok v =>
        rcases heq : enqueueOne h seen w v with ⟨r, w1⟩
        have h1 := enqueueOne_sameChan h seen w v
        rw [heq] at h1
        cases r with
        | error e1 =>
          simp only [asyncJoinT, heq]
          exact ih (ignoreErrorRun_chanInv (chanInv_of_sameChan h1 hw) e1)
        | ok o =>
          simp only [asyncJoinT, heq]
          exact ih (chanInv_of_sameChan h1 hw)

theorem asyncJoinD_capFreeExt (h : Heap) (seen : List Nat) (tasks : List ATask) (w : World) :
    CapFreeExt w (asyncJoinD h seen tasks w).2 := by
  induction tasks generalizing w with
  | nil => exact capFreeExt_refl w
  | cons t rest ih =>
    cases t with
    | fromResult s =>
      rcases heq : asyncJoinD h seen rest w with ⟨e2, w2⟩
      have h1 := ih w
      rw [heq] at h1
      cases s with
      | serr e =>
        simp only [asyncJoinD, heq]
        exact h1
      | sok v =>
        simp only [asyncJoinD, heq]
        exact h1
    | fromThen s =>
      cases s with
      | serr e =>
        rcases heq : asyncJoinD h seen rest w with ⟨e2, w2⟩
        have h1 := ih w
        rw [heq] at h1
        simp only [asyncJoinD, heq]
        exact h1
      | sok v =>
        rcases heq : enqueueOne h seen w v with ⟨r, w1⟩
        have h1 := enqueueOne_capFreeExt h seen w v
        rw [heq] at h1
        cases r with
        | error e1 =>
          rcases heq2 : asyncJoinD h seen rest w1 with ⟨e2, w2⟩
          have h2 := ih w1
          rw [heq2] at h2
          simp only [asyncJoinD, heq, heq2]
          exact capFreeExt_trans h1 h2
        | ok o =>
          simp only [asyncJoinD, heq]
          exact capFreeExt_trans h1 (ih _)

theorem asyncJoinD_chanInv (h : Heap) (seen : List Nat) (tasks : List ATask) {w : World}
    (hw : ChanInv w) : ChanInv (asyncJoinD h seen tasks w).2 := by
  induction tasks generalizing w with
  | nil => exact hw
  | cons t rest ih =>
    cases t with
    | fromResult s =>
      rcases heq : asyncJoinD h seen rest w with ⟨e2, w2⟩
      have h1 := ih hw
      rw [heq] at h1
      cases s with
      | serr e =>
        simp only [asyncJoinD, heq]
        exact h1
      | sok v =>
        simp only [asyncJoinD, heq]
        exact h1
    | fromThen s =>
      cases s with
      | serr e =>
        rcases heq : asyncJoinD h seen rest w with ⟨e2, w2⟩
        have h1 := ih hw
        rw [heq] at h1
        simp only [asyncJoinD, heq]
        exact h1
      | sok v =>
        rcases heq : enqueueOne h seen w v with ⟨r, w1⟩
        have h1 := enqueueOne_sameChan h seen w v
        rw [heq] at h1
        cases r with
        | error e1 =>
          rcases heq2 : asyncJoinD h seen rest w1 with ⟨e2, w2⟩
          have h2 := ih (chanInv_of_sameChan h1 hw)
          rw [heq2] at h2
          simp only [asyncJoinD, heq, heq2]
          exact h2
        | ok o =>
          simp only [asyncJoinD, heq]
          exact ih (chanInv_of_sameChan h1 hw)

theorem runDefers_capFreeExt (defers : List Settle) (w : World) :
    CapFreeExt w (runDefers defers w) := by
  induction defers generalizing w with
  | nil => exact capFreeExt_refl w
  | cons d rest ih =>
    cases d with
    | sok v =>
      simp only [runDefers]
      exact ih _
    | serr e =>
      simp only [runDefers]
      exact capFreeExt_trans (ignoreErrorRun_capFreeExt w e) (ih _)

theorem runDefers_chanInv (defers : List Settle) {w : World} (hw : ChanInv w) :
    ChanInv (runDefers defers w) := by
  induction defers generalizing w with
  | nil => exact hw
  | cons d rest ih =>
    cases d with
    | sok v =>
      simp only [runDefers]
      exact ih hw
    | serr e =>
      simp only [runDefers]
      exact ih (ignoreErrorRun_chanInv hw e)

theorem tryDisposeAsyncGo_nil (h : Heap) (fuel : Nat) (seen : List Nat) (tasks : List ATask)
    (w : World) : tryDisposeAsyncGo h fuel [] seen tasks w = (seen, tasks, w) := by
  cases fuel <;> rfl

theorem pushEvt_trace (w : World) (ev : Event) : (pushEvt w ev).trace = w.trace ++ [ev] := rfl

theorem tryDisposeAsyncGo_relInv (h : Heap) (fuel : Nat) (q : List JSVal) (seen seen2 : List Nat)
    (tasks tasks2 : List ATask) (w w2 : World)
    (heq : tryDisposeAsyncGo h fuel q seen tasks w = (seen2, tasks2, w2))
    (hinv : RelInv seen w.trace) : RelInv seen2 w2.trace := by
  induction fuel generalizing q seen tasks w seen2 tasks2 w2 with
  | zero =>
    simp only [tryDisposeAsyncGo] at heq
    cases heq
    exact hinv
  | succ fuel ih =>
    cases q with
    | nil =>
      simp only [tryDisposeAsyncGo] at heq
      cases heq
      exact hinv
    | cons inst rest =>
      simp only [tryDisposeAsyncGo] at heq
      split at heq
      · exact ih _ _ _ _ _ _ _ heq hinv
      rename_i id href
      split at heq
      · exact ih _ _ _ _ _ _ _ heq hinv
      rename_i hid
      split at heq
      · rename_i e w1 heqID
        have hext := isDisposedRun_capFreeExt h w inst
        rw [heqID] at hext
        have hinv1 : RelInv (id :: seen) (ignoreErrorRun w1 e).trace :=
          relInv_capFreeExt (relInv_cons hinv id)
            (capFreeExt_trans hext (ignoreErrorRun_capFreeExt w1 e))
        exact ih _ _ _ _ _ _ _ heq hinv1
      · rename_i w1 heqID
        have hext := isDisposedRun_capFreeExt h w inst
        rw [heqID] at hext
        exact ih _ _ _ _ _ _ _ heq (relInv_capFreeExt (relInv_cons hinv id) hext)
      rename_i w1 heqID
      have hext := isDisposedRun_capFreeExt h w inst
      rw [heqID] at hext
      have hinvW1 : RelInv seen w1.trace := relInv_capFreeExt hinv hext
      split at heq
      · -- release capability branch
        rename_i c b hcls
        have hrel : RelInv (id :: seen) (pushEvt w1 (Event.capCall id c b.thr)).trace := by
          rw [pushEvt_trace]
          exact relInv_release hinvW1 hid c b.thr
        split at heq
        · rename_i e hthr
          have : RelInv (id :: seen) (ignoreErrorRun (pushEvt w1 (Event.capCall id c b.thr)) e).trace := by
            rw [ignoreErrorRun_trace]
            exact hrel
          exact ih _ _ _ _ _ _ _ heq this
        · split at heq
          · exact ih _ _ _ _ _ _ _ heq hrel
          · exact ih _ _ _ _ _ _ _ heq hrel
      · -- pending branch
        rename_i s hcls
        have : RelInv (id :: seen) (pushEvt w1 (Event.thenReg id)).trace :=
          relInv_capFreeExt (relInv_cons hinvW1 id) (pushEvt_capFreeExt (by simp [isCapEvt]))
        exact ih _ _ _ _ _ _ _ heq this
      · -- sequence branch
        rename_i l hcls
        split at heq
        · rename_i acc e wE heqE
          have hext2 := enqueueList_capFreeExt h (id :: seen) w1 l
          rw [heqE] at hext2
          have : RelInv (id :: seen) (ignoreErrorRun wE e).trace :=
            relInv_capFreeExt (relInv_cons hinvW1 id)
              (capFreeExt_trans hext2 (ignoreErrorRun_capFreeExt wE e))
          exact ih _ _ _ _ _ _ _ heq this
        · rename_i acc wE heqE
          have hext2 := enqueueList_capFreeExt h (id :: seen) w1 l
          rw [heqE] at hext2
          exact ih _ _ _ _ _ _ _ heq (relInv_capFreeExt (relInv_cons hinvW1 id) hext2)
      · -- factory branch
        rename_i b hcls
        have hinv2 : RelInv (id :: seen) (pushEvt w1 (Event.factoryCall id b.thr)).trace :=
          relInv_capFreeExt (relInv_cons hinvW1 id) (pushEvt_capFreeExt (by simp [isCapEvt]))
        split at heq
        · rename_i e hthr
          have : RelInv (id :: seen) (ignoreErrorRun (pushEvt w1 (Event.factoryCall id b.thr)) e).trace := by
            rw [ignoreErrorRun_trace]
            exact hinv2
          exact ih _ _ _ _ _ _ _ heq this
        · split at heq
          · rename_i e w3 heqQ
            have hext3 := enqueueOne_capFreeExt h (id :: seen) (pushEvt w1 (Event.factoryCall id b.thr)) b.ret
            rw [heqQ] at hext3
            have : RelInv (id :: seen) (ignoreErrorRun w3 e).trace :=
              relInv_capFreeExt hinv2 (capFreeExt_trans hext3 (ignoreErrorRun_capFreeExt w3 e))
            exact ih _ _ _ _ _ _ _ heq this
          · rename_i w3 heqQ
            have hext3 := enqueueOne_capFreeExt h (id :: seen) (pushEvt w1 (Event.factoryCall id b.thr)) b.ret
            rw [heqQ] at hext3
            exact ih _ _ _ _ _ _ _ heq (relInv_capFreeExt hinv2 hext3)
          · rename_i v w3 heqQ
            have hext3 := enqueueOne_capFreeExt h (id :: seen) (pushEvt w1 (Event.factoryCall id b.thr)) b.ret
            rw [heqQ] at hext3
            exact ih _ _ _ _ _ _ _ heq (relInv_capFreeExt hinv2 hext3)
      · -- inert branch
        exact ih _ _ _ _ _ _ _ heq (relInv_cons hinvW1 id)

theorem tryDisposeAsyncGo_chanInv (h : Heap) (fuel : Nat) (q : List JSVal) (seen seen2 : List Nat)
    (tasks tasks2 : List ATask) (w w2 : World)
    (heq : tryDisposeAsyncGo h fuel q seen tasks w = (seen2, tasks2, w2))
    (hch : ChanInv w) : ChanInv w2 := by
  induction fuel generalizing q seen tasks w seen2 tasks2 w2 with
  | zero =>
    simp only [tryDisposeAsyncGo] at heq
    cases heq
    exact hch
  | succ fuel ih =>
    cases q with
    | nil =>
      simp only [tryDisposeAsyncGo] at heq
      cases heq
      exact hch
    | cons inst rest =>
      simp only [tryDisposeAsyncGo] at heq
      split at heq
      · exact ih _ _ _ _ _ _ _ heq hch
      rename_i id href
      split at heq
      · exact ih _ _ _ _ _ _ _ heq hch
      rename_i hid
      split at heq
      · rename_i e w1 heqID
        have hsc := isDisposedRun_sameChan h w inst
        rw [heqID] at hsc
        exact ih _ _ _ _ _ _ _ heq (ignoreErrorRun_chanInv (chanInv_of_sameChan hsc hch) e)
      · rename_i w1 heqID
        have hsc := isDisposedRun_sameChan h w inst
        rw [heqID] at hsc
        exact ih _ _ _ _ _ _ _ heq (chanInv_of_sameChan hsc hch)
      rename_i w1 heqID
      have hsc := isDisposedRun_sameChan h w inst
      rw [heqID] at hsc
      have hchW1 : ChanInv w1 := chanInv_of_sameChan hsc hch
      split at heq
      · rename_i c b hcls
        have hch2 : ChanInv (pushEvt w1 (Event.capCall id c b.thr)) :=
          chanInv_of_sameChan (pushEvt_sameChan ..) hchW1
        split at heq
        · rename_i e hthr
          exact ih _ _ _ _ _ _ _ heq (ignoreErrorRun_chanInv hch2 e)
        · split at heq
          · exact ih _ _ _ _ _ _ _ heq hch2
          · exact ih _ _ _ _ _ _ _ heq hch2
      · rename_i s hcls
        exact ih _ _ _ _ _ _ _ heq (chanInv_of_sameChan (pushEvt_sameChan ..) hchW1)
      · rename_i l hcls
        split at heq
        · rename_i acc e wE heqE
          have hsc2 := enqueueList_sameChan h (id :: seen) w1 l
          rw [heqE] at hsc2
          exact ih _ _ _ _ _ _ _ heq (ignoreErrorRun_chanInv (chanInv_of_sameChan hsc2 hchW1) e)
        · rename_i acc wE heqE
          have hsc2 := enqueueList_sameChan h (id :: seen) w1 l
          rw [heqE] at hsc2
          exact ih _ _ _ _ _ _ _ heq (chanInv_of_sameChan hsc2 hchW1)
      · rename_i b hcls
        have hch2 : ChanInv (pushEvt w1 (Event.factoryCall id b.thr)) :=
          chanInv_of_sameChan (pushEvt_sameChan ..) hchW1
        split at heq
        · rename_i e hthr
          exact ih _ _ _ _ _ _ _ heq (ignoreErrorRun_chanInv hch2 e)
        · split at heq
          · rename_i e w3 heqQ
            have hsc3 := enqueueOne_sameChan h (id :: seen) (pushEvt w1 (Event.factoryCall id b.thr)) b.ret
            rw [heqQ] at hsc3
            exact ih _ _ _ _ _ _ _ heq (ignoreErrorRun_chanInv (chanInv_of_sameChan hsc3 hch2) e)
          · rename_i w3 heqQ
            have hsc3 := enqueueOne_sameChan h (id :: seen) (pushEvt w1 (Event.factoryCall id b.thr)) b.ret
            rw [heqQ] at hsc3
            exact ih _ _ _ _ _ _ _ heq (chanInv_of_sameChan hsc3 hch2)
          · rename_i v w3 heqQ
            have hsc3 := enqueueOne_sameChan h (id :: seen) (pushEvt w1 (Event.factoryCall id b.thr)) b.ret
            rw [heqQ] at hsc3
            exact ih _ _ _ _ _ _ _ heq (chanInv_of_sameChan hsc3 hch2)
      · exact ih _ _ _ _ _ _ _ heq hchW1

theorem tryDisposeAsyncRun_relBound (h : Heap) (fuel : Nat) (q : List JSVal) (w : World)
    (hinv : RelInv [] w.trace) (id : Nat) :
    relCount (tryDisposeAsyncRun h fuel q w).2.trace id ≤ 1 := by
  unfold tryDisposeAsyncRun
  rcases hgo : tryDisposeAsyncGo h fuel q [] [] w with ⟨seen, tasks, w1⟩
  have h1 := tryDisposeAsyncGo_relInv h fuel q [] seen [] tasks w w1 hgo hinv
  have h2 := asyncJoinT_capFreeExt h seen tasks w1
  have h3 := relInv_capFreeExt h1 h2
  exact relInv_trace_bound h3 id

theorem tryDisposeAsyncRun_chanInv (h : Heap) (fuel : Nat) (q : List JSVal) {w : World}
    (hch : ChanInv w) : ChanInv (tryDisposeAsyncRun h fuel q w).2 := by
  unfold tryDisposeAsyncRun
  rcases hgo : tryDisposeAsyncGo h fuel q [] [] w with ⟨seen, tasks, w1⟩
  exact asyncJoinT_chanInv h seen tasks
    (tryDisposeAsyncGo_chanInv h fuel q [] seen [] tasks w w1 hgo hch)

/-- A candidate that the asynchronous chain classifies as pending has no
release capability, so the detached tryDisposeAsync performed by the
synchronous engines on it never invokes a release capability: its scan
registers the then callbacks and its join at most probes the resolved
value, whose push lands in the dead queue. -/
theorem tryDisposeAsyncRun_pending_capFreeExt (h : Heap) (fuel : Nat) (id : Nat) {s : Settle}
    (hcls : classifyAsyncD (getObj h id) = .pendingS s) (w : World) :
    CapFreeExt w (tryDisposeAsyncRun h fuel [.ref id] w).2 := by
  unfold tryDisposeAsyncRun
  rcases hgo : tryDisposeAsyncGo h fuel [.ref id] [] [] w with ⟨seen, tasks, w1⟩
  cases fuel with
  | zero =>
    simp only [tryDisposeAsyncGo] at hgo
    cases hgo
    exact asyncJoinT_capFreeExt ..
  | succ fuel =>
    simp only [tryDisposeAsyncGo, refId?] at hgo
    rw [if_neg (List.not_mem_nil id)] at hgo
    split at hgo
    · rename_i e w1x heqID
      have hext := isDisposedRun_capFreeExt h w (.ref id)
      rw [heqID] at hext
      rw [tryDisposeAsyncGo_nil] at hgo
      cases hgo
      exact capFreeExt_trans hext
        (capFreeExt_trans (ignoreErrorRun_capFreeExt w1x e) (asyncJoinT_capFreeExt ..))
    · rename_i w1x heqID
      have hext := isDisposedRun_capFreeExt h w (.ref id)
      rw [heqID] at hext
      rw [tryDisposeAsyncGo_nil] at hgo
      cases hgo
      exact capFreeExt_trans hext (asyncJoinT_capFreeExt ..)
    rename_i w1x heqID
    have hext := isDisposedRun_capFreeExt h w (.ref id)
    rw [heqID] at hext
    split at hgo
    · rename_i c b hcls2
      rw [hcls] at hcls2
      cases hcls2
    · rename_i s2 hcls2
      rw [hcls] at hcls2
      cases hcls2
      rw [tryDisposeAsyncGo_nil] at hgo
      cases hgo
      exact capFreeExt_trans hext (capFreeExt_trans
        (pushEvt_capFreeExt (by simp [isCapEvt])) (asyncJoinT_capFreeExt ..))
    · rename_i l hcls2
      rw [hcls] at hcls2
      cases hcls2
    · rename_i b hcls2
      rw [hcls] at hcls2
      cases hcls2
    · rename_i hcls2
      rw [hcls] at hcls2
      cases hcls2

theorem refId?_some {v : JSVal} {id : Nat} (h : refId? v = some id) : v = .ref id := by
  cases v <;> simp [refId?] at h
  rw [h]

theorem disposeGo_relInv (h : Heap) (fuel : Nat) (q : List JSVal) (seen seen2 : List Nat)
    (r2 : Except Err Unit) (w w2 : World)
    (heq : disposeGo h fuel q seen w = (r2, seen2, w2))
    (hinv : RelInv seen w.trace) : RelInv seen2 w2.trace := by
  induction fuel generalizing q seen w r2 seen2 w2 with
  | zero =>
    simp only [disposeGo] at heq
    cases heq
    exact hinv
  | succ fuel ih =>
    cases q with
    | nil =>
      simp only [disposeGo] at heq
      cases heq
      exact hinv
    | cons inst rest =>
      simp only [disposeGo] at heq
      split at heq
      · exact ih _ _ _ _ _ _ heq hinv
      rename_i id href
      split at heq
      · exact ih _ _ _ _ _ _ heq hinv
      rename_i hid
      split at heq
      · rename_i e w1 heqID
        cases heq
        have hext := isDisposedRun_capFreeExt h w inst
        rw [heqID] at hext
        exact relInv_capFreeExt (relInv_cons hinv id) hext
      · rename_i w1 heqID
        have hext := isDisposedRun_capFreeExt h w inst
        rw [heqID] at hext
        exact ih _ _ _ _ _ _ heq (relInv_capFreeExt (relInv_cons hinv id) hext)
      rename_i w1 heqID
      have hext := isDisposedRun_capFreeExt h w inst
      rw [heqID] at hext
      have hinvW1 : RelInv seen w1.trace := relInv_capFreeExt hinv hext
      split at heq
      · rename_i c b hcls
        have hrel : RelInv (id :: seen) (pushEvt w1 (Event.capCall id c b.thr)).trace := by
          rw [pushEvt_trace]
          exact relInv_release hinvW1 hid c b.thr
        split at heq
        · cases heq
          exact hrel
        · exact ih _ _ _ _ _ _ heq hrel
      · rename_i l hcls
        split at heq
        · rename_i acc e wE heqE
          cases heq
          have hext2 := enqueueList_capFreeExt h (id :: seen) w1 l
          rw [heqE] at hext2
          exact relInv_capFreeExt (relInv_cons hinvW1 id) hext2
        · rename_i acc wE heqE
          have hext2 := enqueueList_capFreeExt h (id :: seen) w1 l
          rw [heqE] at hext2
          exact ih _ _ _ _ _ _ heq (relInv_capFreeExt (relInv_cons hinvW1 id) hext2)
      · rename_i b hcls
        have hinv2 : RelInv (id :: seen) (pushEvt w1 (Event.factoryCall id b.thr)).trace :=
          relInv_capFreeExt (relInv_cons hinvW1 id) (pushEvt_capFreeExt (by simp [isCapEvt]))
        split at heq
        · cases heq
          exact hinv2
        · split at heq
          · rename_i e w3 heqQ
            cases heq
            have hext3 := enqueueOne_capFreeExt h (id :: seen) (pushEvt w1 (Event.factoryCall id b.thr)) b.ret
            rw [heqQ] at hext3
            exact relInv_capFreeExt hinv2 hext3
          · rename_i w3 heqQ
            have hext3 := enqueueOne_capFreeExt h (id :: seen) (pushEvt w1 (Event.factoryCall id b.thr)) b.ret
            rw [heqQ] at hext3
            exact ih _ _ _ _ _ _ heq (relInv_capFreeExt hinv2 hext3)
          · rename_i v w3 heqQ
            have hext3 := enqueueOne_capFreeExt h (id :: seen) (pushEvt w1 (Event.factoryCall id b.thr)) b.ret
            rw [heqQ] at hext3
            exact ih _ _ _ _ _ _ heq (relInv_capFreeExt hinv2 hext3)
      · rename_i s hcls
        rw [refId?_some href] at heq
        have hdet := tryDisposeAsyncRun_pending_capFreeExt h fuel id
          (classifySyncD_pendingS_async hcls) w1
        exact ih _ _ _ _ _ _ heq (relInv_capFreeExt (relInv_cons hinvW1 id) hdet)
      · exact ih _ _ _ _ _ _ heq (relInv_cons hinvW1 id)

theorem tryDisposeGo_relInv (h : Heap) (fuel : Nat) (q : List JSVal) (seen seen2 : List Nat)
    (defers : List Settle) (r2 : Except Err Unit) (w w2 : World)
    (heq : tryDisposeGo h fuel q seen defers w = (r2, seen2, w2))
    (hinv : RelInv seen w.trace) : RelInv seen2 w2.trace := by
  induction fuel generalizing q seen defers w r2 seen2 w2 with
  | zero =>
    simp only [tryDisposeGo] at heq
    cases heq
    exact relInv_capFreeExt hinv (runDefers_capFreeExt defers w)
  | succ fuel ih =>
    cases q with
    | nil =>
      simp only [tryDisposeGo] at heq
      cases heq
      exact relInv_capFreeExt hinv (runDefers_capFreeExt defers w)
    | cons inst rest =>
      simp only [tryDisposeGo] at heq
      split at heq
      · exact ih _ _ _ _ _ _ _ heq hinv
      rename_i id href
      split at heq
      · exact ih _ _ _ _ _ _ _ heq hinv
      rename_i hid
      split at heq
      · rename_i e w1 heqID
        have hext := isDisposedRun_capFreeExt h w inst
        rw [heqID] at hext
        exact ih _ _ _ _ _ _ _ heq (relInv_capFreeExt (relInv_cons hinv id)
          (capFreeExt_trans hext (ignoreErrorRun_capFreeExt w1 e)))
      · rename_i w1 heqID
        have hext := isDisposedRun_capFreeExt h w inst
        rw [heqID] at hext
        exact ih _ _ _ _ _ _ _ heq (relInv_capFreeExt (relInv_cons hinv id) hext)
      rename_i w1 heqID
      have hext := isDisposedRun_capFreeExt h w inst
      rw [heqID] at hext
      have hinvW1 : RelInv seen w1.trace := relInv_capFreeExt hinv hext
      split at heq
      · rename_i c b hcls
        have hrel : RelInv (id :: seen) (pushEvt w1 (Event.capCall id c b.thr)).trace := by
          rw [pushEvt_trace]
          exact relInv_release hinvW1 hid c b.thr
        split at heq
        · rename_i e hthr
          have : RelInv (id :: seen) (ignoreErrorRun (pushEvt w1 (Event.capCall id c b.thr)) e).trace := by
            rw [ignoreErrorRun_trace]
            exact hrel
          exact ih _ _ _ _ _ _ _ heq this
        · split at heq
          · exact ih _ _ _ _ _ _ _ heq hrel
          · exact ih _ _ _ _ _ _ _ heq hrel
      · rename_i l hcls
        split at heq
        · rename_i acc e wE heqE
          have hext2 := enqueueList_capFreeExt h (id :: seen) w1 l
          rw [heqE] at hext2
          exact ih _ _ _ _ _ _ _ heq (relInv_capFreeExt (relInv_cons hinvW1 id)
            (capFreeExt_trans hext2 (ignoreErrorRun_capFreeExt wE e)))
        · rename_i acc wE heqE
          have hext2 := enqueueList_capFreeExt h (id :: seen) w1 l
          rw [heqE] at hext2
          exact ih _ _ _ _ _ _ _ heq (relInv_capFreeExt (relInv_cons hinvW1 id) hext2)
      · rename_i b hcls
        have hinv2 : RelInv (id :: seen) (pushEvt w1 (Event.factoryCall id b.thr)).trace :=
          relInv_capFreeExt (relInv_cons hinvW1 id) (pushEvt_capFreeExt (by simp [isCapEvt]))
        split at heq
        · rename_i e hthr
          have : RelInv (id :: seen) (ignoreErrorRun (pushEvt w1 (Event.factoryCall id b.thr)) e).trace := by
            rw [ignoreErrorRun_trace]
            exact hinv2
          exact ih _ _ _ _ _ _ _ heq this
        · split at heq
          · rename_i e w3 heqQ
            have hext3 := enqueueOne_capFreeExt h (id :: seen) (pushEvt w1 (Event.factoryCall id b.thr)) b.ret
            rw [heqQ] at hext3
            exact ih _ _ _ _ _ _ _ heq (relInv_capFreeExt hinv2
              (capFreeExt_trans hext3 (ignoreErrorRun_capFreeExt w3 e)))
          · rename_i w3 heqQ
            have hext3 := enqueueOne_capFreeExt h (id :: seen) (pushEvt w1 (Event.factoryCall id b.thr)) b.ret
            rw [heqQ] at hext3
            exact ih _ _ _ _ _ _ _ heq (relInv_capFreeExt hinv2 hext3)
          · rename_i v w3 heqQ
            have hext3 := enqueueOne_capFreeExt h (id :: seen) (pushEvt w1 (Event.factoryCall id b.thr)) b.ret
            rw [heqQ] at hext3
            exact ih _ _ _ _ _ _ _ heq (relInv_capFreeExt hinv2 hext3)
      · rename_i s hcls
        rw [refId?_some href] at heq
        have hdet := tryDisposeAsyncRun_pending_capFreeExt h fuel id
          (classifySyncD_pendingS_async hcls) w1
        exact ih _ _ _ _ _ _ _ heq (relInv_capFreeExt (relInv_cons hinvW1 id) hdet)
      · exact ih _ _ _ _ _ _ _ heq (relInv_cons hinvW1 id)

theorem disposeAsyncGo_relInv (h : Heap) (fuel : Nat) (q : List JSVal) (seen seen2 : List Nat)
    (tasks tasks2 : List ATask) (r2 : Except Err Unit) (w w2 : World)
    (heq : disposeAsyncGo h fuel q seen tasks w = (r2, seen2, tasks2, w2))
    (hinv : RelInv seen w.trace) : RelInv seen2 w2.trace := by
  induction fuel generalizing q seen tasks w r2 seen2 tasks2 w2 with
  | zero =>
    simp only [disposeAsyncGo] at heq
    cases heq
    exact hinv
  | succ fuel ih =>
    cases q with
    | nil =>
      simp only [disposeAsyncGo] at heq
      cases heq
      exact hinv
    | cons inst rest =>
      simp only [disposeAsyncGo] at heq
      split at heq
      · exact ih _ _ _ _ _ _ _ _ heq hinv
      rename_i id href
      split at heq
      · exact ih _ _ _ _ _ _ _ _ heq hinv
      rename_i hid
      split at heq
      · rename_i e w1 heqID
        cases heq
        have hext := isDisposedRun_capFreeExt h w inst
        rw [heqID] at hext
        exact relInv_capFreeExt (relInv_cons hinv id) hext
      · rename_i w1 heqID
        have hext := isDisposedRun_capFreeExt h w inst
        rw [heqID] at hext
        exact ih _ _ _ _ _ _ _ _ heq (relInv_capFreeExt (relInv_cons hinv id) hext)
      rename_i w1 heqID
      have hext := isDisposedRun_capFreeExt h w inst
      rw [heqID] at hext
      have hinvW1 : RelInv seen w1.trace := relInv_capFreeExt hinv hext
      split at heq
      · rename_i c b hcls
        have hrel : RelInv (id :: seen) (pushEvt w1 (Event.capCall id c b.thr)).trace := by
          rw [pushEvt_trace]
          exact relInv_release hinvW1 hid c b.thr
        split at heq
        · cases heq
          exact hrel
        · split at heq
          · exact ih _ _ _ _ _ _ _ _ heq hrel
          · exact ih _ _ _ _ _ _ _ _ heq hrel
      · rename_i s hcls
        have : RelInv (id :: seen) (pushEvt w1 (Event.thenReg id)).trace :=
          relInv_capFreeExt (relInv_cons hinvW1 id) (pushEvt_capFreeExt (by simp [isCapEvt]))
        exact ih _ _ _ _ _ _ _ _ heq this
      · rename_i l hcls
        split at heq
        · rename_i acc e wE heqE
          cases heq
          have hext2 := enqueueList_capFreeExt h (id :: seen) w1 l
          rw [heqE] at hext2
          exact relInv_capFreeExt (relInv_cons hinvW1 id) hext2
        · rename_i acc wE heqE
          have hext2 := enqueueList_capFreeExt h (id :: seen) w1 l
          rw [heqE] at hext2
          exact ih _ _ _ _ _ _ _ _ heq (relInv_capFreeExt (relInv_cons hinvW1 id) hext2)
      · rename_i b hcls
        have hinv2 : RelInv (id :: seen) (pushEvt w1 (Event.factoryCall id b.thr)).trace :=
          relInv_capFreeExt (relInv_cons hinvW1 id) (pushEvt_capFreeExt (by simp [isCapEvt]))
        split at heq
        · cases heq
          exact hinv2
        · split at heq
          · rename_i e w3 heqQ
            cases heq
            have hext3 := enqueueOne_capFreeExt h (id :: seen) (pushEvt w1 (Event.factoryCall id b.thr)) b.ret
            rw [heqQ] at hext3
            exact relInv_capFreeExt hinv2 hext3
          · rename_i w3 heqQ
            have hext3 := enqueueOne_capFreeExt h (id :: seen) (pushEvt w1 (Event.factoryCall id b.thr)) b.ret
            rw [heqQ] at hext3
            exact ih _ _ _ _ _ _ _ _ heq (relInv_capFreeExt hinv2 hext3)
          · rename_i v w3 heqQ
            have hext3 := enqueueOne_capFreeExt h (id :: seen) (pushEvt w1 (Event.factoryCall id b.thr)) b.ret
            rw [heqQ] at hext3
            exact ih _ _ _ _ _ _ _ _ heq (relInv_capFreeExt hinv2 hext3)
      · exact ih _ _ _ _ _ _ _ _ heq (relInv_cons hinvW1 id)

theorem tryDisposeGo_ok (h : Heap) (fuel : Nat) (q : List JSVal) (seen : List Nat)
    (defers : List Settle) (w : World) :
    (tryDisposeGo h fuel q seen defers w).1 = .ok () := by
  induction fuel generalizing q seen defers w with
  | zero => rfl
  | succ fuel ih =>
    cases q with
    | nil => rfl
    | cons inst rest =>
      simp only [tryDisposeGo]
      split
      · exact ih _ _ _ _
      split
      · exact ih _ _ _ _
      split
      · exact ih _ _ _ _
      · exact ih _ _ _ _
      split
      · split
        · exact ih _ _ _ _
        · split
          · exact ih _ _ _ _
          · exact ih _ _ _ _
      · split
        · exact ih _ _ _ _
        · exact ih _ _ _ _
      · split
        · exact ih _ _ _ _
        · split
          · exact ih _ _ _ _
          · exact ih _ _ _ _
          · exact ih _ _ _ _
      · exact ih _ _ _ _
      · exact ih _ _ _ _

theorem tryDisposeGo_chanInv (h : Heap) (fuel : Nat) (q : List JSVal) (seen seen2 : List Nat)
    (defers : List Settle) (r2 : Except Err Unit) (w w2 : World)
    (heq : tryDisposeGo h fuel q seen defers w = (r2, seen2, w2))
    (hch : ChanInv w) : ChanInv w2 := by
  induction fuel generalizing q seen defers w r2 seen2 w2 with
  | zero =>
    simp only [tryDisposeGo] at heq
    cases heq
    exact runDefers_chanInv defers hch
  | succ fuel ih =>
    cases q with
    | nil =>
      simp only [tryDisposeGo] at heq
      cases heq
      exact runDefers_chanInv defers hch
    | cons inst rest =>
      simp only [tryDisposeGo] at heq
      split at heq
      · exact ih _ _ _ _ _ _ _ heq hch
      rename_i id href
      split at heq
      · exact ih _ _ _ _ _ _ _ heq hch
      rename_i hid
      split at heq
      · rename_i e w1 heqID
        have hsc := isDisposedRun_sameChan h w inst
        rw [heqID] at hsc
        exact ih _ _ _ _ _ _ _ heq (ignoreErrorRun_chanInv (chanInv_of_sameChan hsc hch) e)
      · rename_i w1 heqID
        have hsc := isDisposedRun_sameChan h w inst
        rw [heqID] at hsc
        exact ih _ _ _ _ _ _ _ heq (chanInv_of_sameChan hsc hch)
      rename_i w1 heqID
      have hsc := isDisposedRun_sameChan h w inst
      rw [heqID] at hsc
      have hchW1 : ChanInv w1 := chanInv_of_sameChan hsc hch
      split at heq
      · rename_i c b hcls
        have hch2 : ChanInv (pushEvt w1 (Event.capCall id c b.thr)) :=
          chanInv_of_sameChan (pushEvt_sameChan ..) hchW1
        split at heq
        · rename_i e hthr
          exact ih _ _ _ _ _ _ _ heq (ignoreErrorRun_chanInv hch2 e)
        · split at heq
          · exact ih _ _ _ _ _ _ _ heq hch2
          · exact ih _ _ _ _ _ _ _ heq hch2
      · rename_i l hcls
        split at heq
        · rename_i acc e wE heqE
          have hsc2 := enqueueList_sameChan h (id :: seen) w1 l
          rw [heqE] at hsc2
          exact ih _ _ _ _ _ _ _ heq (ignoreErrorRun_chanInv (chanInv_of_sameChan hsc2 hchW1) e)
        · rename_i acc wE heqE
          have hsc2 := enqueueList_sameChan h (id :: seen) w1 l
          rw [heqE] at hsc2
          exact ih _ _ _ _ _ _ _ heq (chanInv_of_sameChan hsc2 hchW1)
      · rename_i b hcls
        have hch2 : ChanInv (pushEvt w1 (Event.factoryCall id b.thr)) :=
          chanInv_of_sameChan (pushEvt_sameChan ..) hchW1
        split at heq
        · rename_i e hthr
          exact ih _ _ _ _ _ _ _ heq (ignoreErrorRun_chanInv hch2 e)
        · split at heq
          · rename_i e w3 heqQ
            have hsc3 := enqueueOne_sameChan h (id :: seen) (pushEvt w1 (Event.factoryCall id b.thr)) b.ret
            rw [heqQ] at hsc3
            exact ih _ _ _ _ _ _ _ heq (ignoreErrorRun_chanInv (chanInv_of_sameChan hsc3 hch2) e)
          · rename_i w3 heqQ
            have hsc3 := enqueueOne_sameChan h (id :: seen) (pushEvt w1 (Event.factoryCall id b.thr)) b.ret
            rw [heqQ] at hsc3
            exact ih _ _ _ _ _ _ _ heq (chanInv_of_sameChan hsc3 hch2)
          · rename_i v w3 heqQ
            have hsc3 := enqueueOne_sameChan h (id :: seen) (pushEvt w1 (Event.factoryCall id b.thr)) b.ret
            rw [heqQ] at hsc3
            exact ih _ _ _ _ _ _ _ heq (chanInv_of_sameChan hsc3 hch2)
      · rename_i s hcls
        exact ih _ _ _ _ _ _ _ heq (tryDisposeAsyncRun_chanInv h fuel [inst] hchW1)
      · exact ih _ _ _ _ _ _ _ heq hchW1

/-! ### Lemmas for the fail-fast stop-on-throw property -/

theorem capThrFree_no_decomp {t : List Event} (hfree : CapThrFree t) {t1 t2 : List Event}
    {id : Nat} {c : Cap} {e : Err} (heq : t = t1 ++ Event.capCall id c (some e) :: t2) :
    False := by
  refine hfree id c e ?_
  rw [heq]
  exact List.mem_append.mpr (Or.inr (List.mem_cons_self _ _))

theorem capThrFree_append_capNone {t : List Event} (hfree : CapThrFree t) (id : Nat) (c : Cap) :
    CapThrFree (t ++ [Event.capCall id c none]) := by
  intro j cc e hmem
  rcases List.mem_append.mp hmem with hl | hr
  · exact hfree j cc e hl
  · simp at hr

theorem capThrFree_append_single {t : List Event} (hfree : CapThrFree t) {t1 t2 : List Event}
    {x y : Event} (hthr : ThrCap y) (heq : t ++ [x] = t1 ++ y :: t2) :
    t2 = [] ∧ y = x := by
  induction t generalizing t1 with
  | nil =>
    cases t1 with
    | nil =>
      simp only [List.nil_append] at heq
      cases heq
      exact ⟨rfl, rfl⟩
    | cons b t1' =>
      exfalso
      have hlen := congrArg List.length heq
      simp at hlen
  | cons a t' ih =>
    have hfree' : CapThrFree t' := by
      intro j cc e hm
      exact hfree j cc e (List.mem_cons_of_mem _ hm)
    cases t1 with
    | nil =>
      simp only [List.cons_append, List.nil_append, List.cons.injEq] at heq
      exfalso
      obtain ⟨j, cc, e, hy⟩ := hthr
      refine hfree j cc e ?_
      rw [← hy, ← heq.1]
      exact List.mem_cons_self _ _
    | cons b t1' =>
      simp only [List.cons_append, List.cons.injEq] at heq
      exact ih hfree' heq.2

theorem disposeGo_thrCap (h : Heap) (fuel : Nat) (q : List JSVal) (seen seen2 : List Nat)
    (r2 : Except Err Unit) (w w2 : World)
    (heq : disposeGo h fuel q seen w = (r2, seen2, w2))
    (hfree : CapThrFree w.trace) :
    ∀ t1 idd cc ee t2, w2.trace = t1 ++ Event.capCall idd cc (some ee) :: t2 →
      t2 = [] ∧ r2 = .error ee := by
  induction fuel generalizing q seen w r2 seen2 w2 with
  | zero =>
    simp only [disposeGo] at heq
    cases heq
    intro t1 idd cc ee t2 hdec
    exact (capThrFree_no_decomp hfree hdec).elim
  | succ fuel ih =>
    cases q with
    | nil =>
      simp only [disposeGo] at heq
      cases heq
      intro t1 idd cc ee t2 hdec
      exact (capThrFree_no_decomp hfree hdec).elim
    | cons inst rest =>
      simp only [disposeGo] at heq
      split at heq
      · exact ih _ _ _ _ _ _ heq hfree
      rename_i id href
      split at heq
      · exact ih _ _ _ _ _ _ heq hfree
      rename_i hid
      split at heq
      · rename_i e w1 heqID
        cases heq
        have hext := isDisposedRun_capFreeExt h w inst
        rw [heqID] at hext
        have hfree1 := capThrFree_of_capFreeExt hfree hext
        intro t1 idd cc ee t2 hdec
        exact (capThrFree_no_decomp hfree1 hdec).elim
      · rename_i w1 heqID
        have hext := isDisposedRun_capFreeExt h w inst
        rw [heqID] at hext
        exact ih _ _ _ _ _ _ heq (capThrFree_of_capFreeExt hfree hext)
      rename_i w1 heqID
      have hext := isDisposedRun_capFreeExt h w inst
      rw [heqID] at hext
      have hfree1 := capThrFree_of_capFreeExt hfree hext
      split at heq
      · rename_i c b hcls
        split at heq
        · rename_i e hthr
          cases heq
          intro t1 idd cc ee t2 hdec
          rw [pushEvt_trace, hthr] at hdec
          obtain ⟨ht2, hyx⟩ := capThrFree_append_single hfree1 ⟨idd, cc, ee, rfl⟩ hdec
          cases hyx
          exact ⟨ht2, rfl⟩
        · rename_i hthr
          have hfree2 : CapThrFree (pushEvt w1 (Event.capCall id c b.thr)).trace := by
            rw [pushEvt_trace, hthr]
            exact capThrFree_append_capNone hfree1 id c
          exact ih _ _ _ _ _ _ heq hfree2
      · rename_i l hcls
        split at heq
        · rename_i acc e wE heqE
          cases heq
          have hext2 := enqueueList_capFreeExt h (id :: seen) w1 l
          rw [heqE] at hext2
          have hfree2 := capThrFree_of_capFreeExt hfree1 hext2
          intro t1 idd cc ee t2 hdec
          exact (capThrFree_no_decomp hfree2 hdec).elim
        · rename_i acc wE heqE
          have hext2 := enqueueList_capFreeExt h (id :: seen) w1 l
          rw [heqE] at hext2
          exact ih _ _ _ _ _ _ heq (capThrFree_of_capFreeExt hfree1 hext2)
      · rename_i b hcls
        have hfree2 : CapThrFree (pushEvt w1 (Event.factoryCall id b.thr)).trace :=
          capThrFree_of_capFreeExt hfree1 (pushEvt_capFreeExt (by simp [isCapEvt]))
        split at heq
        · rename_i e hthr
          cases heq
          intro t1 idd cc ee t2 hdec
          exact (capThrFree_no_decomp hfree2 hdec).elim
        · split at heq
          · rename_i e w3 heqQ
            cases heq
            have hext3 := enqueueOne_capFreeExt h (id :: seen) (pushEvt w1 (Event.factoryCall id b.thr)) b.ret
            rw [heqQ] at hext3
            have hfree3 := capThrFree_of_capFreeExt hfree2 hext3
            intro t1 idd cc ee t2 hdec
            exact (capThrFree_no_decomp hfree3 hdec).elim
          · rename_i w3 heqQ
            have hext3 := enqueueOne_capFreeExt h (id :: seen) (pushEvt w1 (Event.factoryCall id b.thr)) b.ret
            rw [heqQ] at hext3
            exact ih _ _ _ _ _ _ heq (capThrFree_of_capFreeExt hfree2 hext3)
          · rename_i v w3 heqQ
            have hext3 := enqueueOne_capFreeExt h (id :: seen) (pushEvt w1 (Event.factoryCall id b.thr)) b.ret
            rw [heqQ] at hext3
            exact ih _ _ _ _ _ _ heq (capThrFree_of_capFreeExt hfree2 hext3)
      · rename_i s hcls
        rw [refId?_some href] at heq
        have hdet := tryDisposeAsyncRun_pending_capFreeExt h fuel id
          (classifySyncD_pendingS_async hcls) w1
        exact ih _ _ _ _ _ _ heq (capThrFree_of_capFreeExt hfree1 hdet)
      · exact ih _ _ _ _ _ _ heq hfree1

/-! ### Small equation lemmas for single candidates -/

theorem disposeGo_nil (h : Heap) (fuel : Nat) (seen : List Nat) (w : World) :
    disposeGo h fuel [] seen w = (.ok (), seen, w) := by
  cases fuel <;> rfl

theorem tryDisposeGo_nil (h : Heap) (fuel : Nat) (seen : List Nat) (defers : List Settle)
    (w : World) :
    tryDisposeGo h fuel [] seen defers w = (.ok (), seen, runDefers defers w) := by
  cases fuel <;> rfl

theorem disposeAsyncGo_nil (h : Heap) (fuel : Nat) (seen : List Nat) (tasks : List ATask)
    (w : World) :
    disposeAsyncGo h fuel [] seen tasks w = (.ok (), seen, tasks, w) := by
  cases fuel <;> rfl

theorem capFreeExt_no_capCall {w w' : World} (hext : CapFreeExt w w') (hnil : w.trace = [])
    {id : Nat} {c : Cap} {thr : Option Err} (hmem : Event.capCall id c thr ∈ w'.trace) :
    False := by
  obtain ⟨t, ht, hf⟩ := hext
  rw [ht, hnil, List.nil_append] at hmem
  have := hf _ hmem
  simp [isCapEvt] at this

theorem classify_dispose_fn {o : JSObj} {n : Nat} {b : MBeh} (hdis : o.disposeP = .fn n b) :
    classifySyncD o = .release .cdispose b ∧ classifyAsyncD o = .release .cdispose b := by
  have hrel : releaseCap? o = some (.cdispose, b) := by
    unfold releaseCap?
    rw [hdis]
  constructor
  · unfold classifySyncD
    rw [hrel]
  · unfold classifyAsyncD
    rw [hrel]

theorem isDisposedRun_released {h : Heap} {id : Nat} (hrel : Released (getObj h id))
    (w : World) : (isDisposedRun h w (.ref id)).1 = .ok true := by
  rcases hrel with ⟨v, hprop, ht⟩ | ⟨n, b, hprop, hthr, hret⟩
  · simp [isDisposedRun, hprop, ht]
  · simp [isDisposedRun, hprop, hthr, hret]

theorem isDisposedRun_absent {h : Heap} {id : Nat}
    (hprop : (getObj h id).isDisposedP = .absent) (w : World) :
    isDisposedRun h w (.ref id) = (.ok false, w) := by
  simp [isDisposedRun, hprop]

theorem disposeGo_step_throw (h : Heap) (fuel : Nat) {id : Nat} (rest : List JSVal)
    {seen : List Nat} (w : World) {n : Nat} {b : MBeh} {e : Err}
    (hprop : (getObj h id).isDisposedP = .absent)
    (hdis : (getObj h id).disposeP = .fn n b)
    (hseen : id ∉ seen) (hthr : b.thr = some e) :
    disposeGo h (fuel + 1) (.ref id :: rest) seen w =
      (.error e, id :: seen, pushEvt w (.capCall id .cdispose (some e))) := by
  have hcls := (classify_dispose_fn hdis).1
  simp [disposeGo, refId?, isDisposedRun_absent hprop w, hcls, hthr, hseen]

theorem disposeGo_step_ok (h : Heap) (fuel : Nat) {id : Nat} (rest : List JSVal)
    {seen : List Nat} (w : World) {n : Nat} {b : MBeh}
    (hprop : (getObj h id).isDisposedP = .absent)
    (hdis : (getObj h id).disposeP = .fn n b)
    (hseen : id ∉ seen) (hthr : b.thr = none) :
    disposeGo h (fuel + 1) (.ref id :: rest) seen w =
      disposeGo h fuel rest (id :: seen) (pushEvt w (.capCall id .cdispose none)) := by
  have hcls := (classify_dispose_fn hdis).1
  simp [disposeGo, refId?, isDisposedRun_absent hprop w, hcls, hthr, hseen]

theorem tryDisposeGo_step_throw (h : Heap) (fuel : Nat) {id : Nat} (rest : List JSVal)
    {seen : List Nat} (defers : List Settle) (w : World) {n : Nat} {b : MBeh} {e : Err}
    (hprop : (getObj h id).isDisposedP = .absent)
    (hdis : (getObj h id).disposeP = .fn n b)
    (hseen : id ∉ seen) (hthr : b.thr = some e) :
    tryDisposeGo h (fuel + 1) (.ref id :: rest) seen defers w =
      tryDisposeGo h fuel rest (id :: seen) defers
        (ignoreErrorRun (pushEvt w (.capCall id .cdispose (some e))) e) := by
  have hcls := (classify_dispose_fn hdis).1
  simp [tryDisposeGo, refId?, isDisposedRun_absent hprop w, hcls, hthr, hseen]

theorem tryDisposeGo_step_ok (h : Heap) (fuel : Nat) {id : Nat} (rest : List JSVal)
    {seen : List Nat} (defers : List Settle) (w : World) {n : Nat} {b : MBeh}
    (hprop : (getObj h id).isDisposedP = .absent)
    (hdis : (getObj h id).disposeP = .fn n b)
    (hseen : id ∉ seen) (hthr : b.thr = none)
    (hres : resultThen? h b.ret = none) :
    tryDisposeGo h (fuel + 1) (.ref id :: rest) seen defers w =
      tryDisposeGo h fuel rest (id :: seen) defers
        (pushEvt w (.capCall id .cdispose none)) := by
  have hcls := (classify_dispose_fn hdis).1
  simp [tryDisposeGo, refId?, isDisposedRun_absent hprop w, hcls, hthr, hres, hseen]

theorem disposeAsyncGo_step_throw (h : Heap) (fuel : Nat) {id : Nat} (rest : List JSVal)
    {seen : List Nat} (tasks : List ATask) (w : World) {n : Nat} {b : MBeh} {e : Err}
    (hprop : (getObj h id).isDisposedP = .absent)
    (hdis : (getObj h id).disposeP = .fn n b)
    (hseen : id ∉ seen) (hthr : b.thr = some e) :
    disposeAsyncGo h (fuel + 1) (.ref id :: rest) seen tasks w =
      (.error e, id :: seen, tasks, pushEvt w (.capCall id .cdispose (some e))) := by
  have hcls := (classify_dispose_fn hdis).2
  simp [disposeAsyncGo, refId?, isDisposedRun_absent hprop w, hcls, hthr, hseen]

theorem disposeAsyncGo_step_ok (h : Heap) (fuel : Nat) {id : Nat} (rest : List JSVal)
    {seen : List Nat} (tasks : List ATask) (w : World) {n : Nat} {b : MBeh}
    (hprop : (getObj h id).isDisposedP = .absent)
    (hdis : (getObj h id).disposeP = .fn n b)
    (hseen : id ∉ seen) (hthr : b.thr = none)
    (hres : resultThen? h b.ret = none) :
    disposeAsyncGo h (fuel + 1) (.ref id :: rest) seen tasks w =
      disposeAsyncGo h fuel rest (id :: seen) tasks
        (pushEvt w (.capCall id .cdispose none)) := by
  have hcls := (classify_dispose_fn hdis).2
  simp [disposeAsyncGo, refId?, isDisposedRun_absent hprop w, hcls, hthr, hres, hseen]

theorem mem_capCall_of_capFreeExt {w w' : World} (hext : CapFreeExt w w') {id : Nat} {c : Cap}
    {thr : Option Err} (hmem : Event.capCall id c thr ∈ w'.trace) :
    Event.capCall id c thr ∈ w.trace := by
  obtain ⟨t, ht, hf⟩ := hext
  rw [ht] at hmem
  rcases List.mem_append.mp hmem with hl | hr
  · exact hl
  · have := hf _ hr
    simp [isCapEvt] at this

theorem mem_of_capFreeExt {w w' : World} (hext : CapFreeExt w w') {ev : Event}
    (hmem : ev ∈ w.trace) : ev ∈ w'.trace := by
  obtain ⟨t, ht, _⟩ := hext
  rw [ht]
  exact List.mem_append_left _ hmem

/-! ### Skip lemmas: nullish and already-released candidates -/

theorem disposeRun_skip (h : Heap) (fuel : Nat) {v : JSVal} (w : World)
    (href : refId? v = none) : disposeRun h fuel [v] w = (.ok (), w) := by
  cases fuel with
  | zero => rfl
  | succ fuel => simp [disposeRun, disposeGo, href, disposeGo_nil]

theorem tryDisposeRun_skip (h : Heap) (fuel : Nat) {v : JSVal} (w : World)
    (href : refId? v = none) : tryDisposeRun h fuel [v] w = (.ok (), w) := by
  cases fuel with
  | zero => rfl
  | succ fuel => simp [tryDisposeRun, tryDisposeGo, href, tryDisposeGo_nil, runDefers]

theorem disposeAsyncRun_skip (h : Heap) (fuel : Nat) {v : JSVal} (w : World)
    (href : refId? v = none) : disposeAsyncRun h fuel [v] w = (.ok (), w) := by
  cases fuel with
  | zero => rfl
  | succ fuel => simp [disposeAsyncRun, disposeAsyncGo, href, disposeAsyncGo_nil, asyncJoinD]

theorem tryDisposeAsyncRun_skip (h : Heap) (fuel : Nat) {v : JSVal} (w : World)
    (href : refId? v = none) : tryDisposeAsyncRun h fuel [v] w = (.ok (), w) := by
  cases fuel with
  | zero => rfl
  | succ fuel => simp [tryDisposeAsyncRun, tryDisposeAsyncGo, href, tryDisposeAsyncGo_nil, asyncJoinT]

theorem disposeRun_released (h : Heap) (fuel : Nat) {id : Nat} (w : World)
    (hrel : Released (getObj h id)) :
    (disposeRun h fuel [.ref id] w).1 = .ok () ∧
    ∀ j, relCount (disposeRun h fuel [.ref id] w).2.trace j = relCount w.trace j := by
  cases fuel with
  | zero => exact ⟨rfl, fun j => rfl⟩
  | succ fuel =>
    rcases heqID : isDisposedRun h w (.ref id) with ⟨r, w1⟩
    have hok := isDisposedRun_released hrel w
    rw [heqID] at hok
    simp only at hok
    subst hok
    have hext := isDisposedRun_capFreeExt h w (.ref id)
    rw [heqID] at hext
    have hrun : disposeRun h (fuel + 1) [.ref id] w = (.ok (), w1) := by
      simp [disposeRun, disposeGo, refId?, heqID, disposeGo_nil]
    rw [hrun]
    exact ⟨rfl, fun j => relCount_of_capFreeExt hext j⟩

theorem tryDisposeRun_released (h : Heap) (fuel : Nat) {id : Nat} (w : World)
    (hrel : Released (getObj h id)) :
    (tryDisposeRun h fuel [.ref id] w).1 = .ok () ∧
    ∀ j, relCount (tryDisposeRun h fuel [.ref id] w).2.trace j = relCount w.trace j := by
  cases fuel with
  | zero => exact ⟨rfl, fun j => rfl⟩
  | succ fuel =>
    rcases heqID : isDisposedRun h w (.ref id) with ⟨r, w1⟩
    have hok := isDisposedRun_released hrel w
    rw [heqID] at hok
    simp only at hok
    subst hok
    have hext := isDisposedRun_capFreeExt h w (.ref id)
    rw [heqID] at hext
    have hrun : tryDisposeRun h (fuel + 1) [.ref id] w = (.ok (), w1) := by
      simp [tryDisposeRun, tryDisposeGo, refId?, heqID, tryDisposeGo_nil, runDefers]
    rw [hrun]
    exact ⟨rfl, fun j => relCount_of_capFreeExt hext j⟩

theorem disposeAsyncRun_released (h : Heap) (fuel : Nat) {id : Nat} (w : World)
    (hrel : Released (getObj h id)) :
    (disposeAsyncRun h fuel [.ref id] w).1 = .ok () ∧
    ∀ j, relCount (disposeAsyncRun h fuel [.ref id] w).2.trace j = relCount w.trace j := by
  cases fuel with
  | zero => exact ⟨rfl, fun j => rfl⟩
  | succ fuel =>
    rcases heqID : isDisposedRun h w (.ref id) with ⟨r, w1⟩
    have hok := isDisposedRun_released hrel w
    rw [heqID] at hok
    simp only at hok
    subst hok
    have hext := isDisposedRun_capFreeExt h w (.ref id)
    rw [heqID] at hext
    have hrun : disposeAsyncRun h (fuel + 1) [.ref id] w = (.ok (), w1) := by
      simp [disposeAsyncRun, disposeAsyncGo, refId?, heqID, disposeAsyncGo_nil, asyncJoinD]
    rw [hrun]
    exact ⟨rfl, fun j => relCount_of_capFreeExt hext j⟩

theorem tryDisposeAsyncRun_released (h : Heap) (fuel : Nat) {id : Nat} (w : World)
    (hrel : Released (getObj h id)) :
    (tryDisposeAsyncRun h fuel [.ref id] w).1 = .ok () ∧
    ∀ j, relCount (tryDisposeAsyncRun h fuel [.ref id] w).2.trace j = relCount w.trace j := by
  cases fuel with
  | zero => exact ⟨rfl, fun j => rfl⟩
  | succ fuel =>
    rcases heqID : isDisposedRun h w (.ref id) with ⟨r, w1⟩
    have hok := isDisposedRun_released hrel w
    rw [heqID] at hok
    simp only at hok
    subst hok
    have hext := isDisposedRun_capFreeExt h w (.ref id)
    rw [heqID] at hext
    have hrun : tryDisposeAsyncRun h (fuel + 1) [.ref id] w = (.ok (), w1) := by
      simp [tryDisposeAsyncRun, tryDisposeAsyncGo, refId?, heqID, tryDisposeAsyncGo_nil,
        asyncJoinT]
    rw [hrun]
    exact ⟨rfl, fun j => relCount_of_capFreeExt hext j⟩

/-! ### Lemmas about precedence: a dispose capability shadows every other shape -/

theorem disposeRun_only_dispose (h : Heap) (fuel : Nat) {id : Nat} {n : Nat} {b : MBeh}
    (w : World) (hdis : (getObj h id).disposeP = .fn n b) (hnil : w.trace = []) :
    ∀ (j : Nat) (c : Cap) (thr : Option Err), c ≠ .cdispose →
      Event.capCall j c thr ∉ (disposeRun h fuel [.ref id] w).2.trace := by
  intro j c thr hc hmem
  cases fuel with
  | zero =>
    rw [show (disposeRun h 0 [.ref id] w).2 = w from rfl, hnil] at hmem
    cases hmem
  | succ fuel =>
    rcases heqID : isDisposedRun h w (.ref id) with ⟨r, w1⟩
    have hext := isDisposedRun_capFreeExt h w (.ref id)
    rw [heqID] at hext
    have hcls := (classify_dispose_fn hdis).1
    cases r with
    | error e =>
      have hrun : (disposeRun h (fuel + 1) [.ref id] w).2 = w1 := by
        simp [disposeRun, disposeGo, refId?, heqID]
      rw [hrun] at hmem
      exact capFreeExt_no_capCall hext hnil hmem
    | ok bb =>
      cases bb with
      | true =>
        have hrun : (disposeRun h (fuel + 1) [.ref id] w).2 = w1 := by
          simp [disposeRun, disposeGo, refId?, heqID, disposeGo_nil]
        rw [hrun] at hmem
        exact capFreeExt_no_capCall hext hnil hmem
      | false =>
        have hone : Event.capCall j c thr ∈
            (pushEvt w1 (Event.capCall id .cdispose b.thr)).trace → False := by
          intro hm
          rw [pushEvt_trace] at hm
          rcases List.mem_append.mp hm with hl | hr
          · exact capFreeExt_no_capCall hext hnil hl
          · rw [List.mem_singleton] at hr
            cases hr
            exact hc rfl
        cases hthr : b.thr with
        | some e =>
          have hrun : (disposeRun h (fuel + 1) [.ref id] w).2 =
              pushEvt w1 (Event.capCall id .cdispose (some e)) := by
            simp [disposeRun, disposeGo, refId?, heqID, hcls, hthr]
          rw [hrun] at hmem
          rw [hthr] at hone
          exact hone hmem
        | none =>
          have hrun : (disposeRun h (fuel + 1) [.ref id] w).2 =
              pushEvt w1 (Event.capCall id .cdispose none) := by
            simp [disposeRun, disposeGo, refId?, heqID, hcls, hthr, disposeGo_nil]
          rw [hrun] at hmem
          rw [hthr] at hone
          exact hone hmem

theorem disposeAsyncRun_only_dispose (h : Heap) (fuel : Nat) {id : Nat} {n : Nat} {b : MBeh}
    (w : World) (hdis : (getObj h id).disposeP = .fn n b) (hnil : w.trace = []) :
    ∀ (j : Nat) (c : Cap) (thr : Option Err), c ≠ .cdispose →
      Event.capCall j c thr ∉ (disposeAsyncRun h fuel [.ref id] w).2.trace := by
  intro j c thr hc hmem
  cases fuel with
  | zero =>
    rw [show (disposeAsyncRun h 0 [.ref id] w).2 = w from rfl, hnil] at hmem
    cases hmem
  | succ fuel =>
    rcases heqID : isDisposedRun h w (.ref id) with ⟨r, w1⟩
    have hext := isDisposedRun_capFreeExt h w (.ref id)
    rw [heqID] at hext
    have hcls := (classify_dispose_fn hdis).2
    cases r with
    | error e =>
      have hrun : (disposeAsyncRun h (fuel + 1) [.ref id] w).2 = w1 := by
        simp [disposeAsyncRun, disposeAsyncGo, refId?, heqID]
      rw [hrun] at hmem
      exact capFreeExt_no_capCall hext hnil hmem
    | ok bb =>
      cases bb with
      | true =>
        have hrun : (disposeAsyncRun h (fuel + 1) [.ref id] w).2 = w1 := by
          simp [disposeAsyncRun, disposeAsyncGo, refId?, heqID, disposeAsyncGo_nil, asyncJoinD]
        rw [hrun] at hmem
        exact capFreeExt_no_capCall hext hnil hmem
      | false =>
        have hone : Event.capCall j c thr ∈
            (pushEvt w1 (Event.capCall id .cdispose b.thr)).trace → False := by
          intro hm
          rw [pushEvt_trace] at hm
          rcases List.mem_append.mp hm with hl | hr
          · exact capFreeExt_no_capCall hext hnil hl
          · rw [List.mem_singleton] at hr
            cases hr
            exact hc rfl
        cases hthr : b.thr with
        | some e =>
          have hrun : (disposeAsyncRun h (fuel + 1) [.ref id] w).2 =
              pushEvt w1 (Event.capCall id .cdispose (some e)) := by
            simp [disposeAsyncRun, disposeAsyncGo, refId?, heqID, hcls, hthr]
          rw [hrun] at hmem
          rw [hthr] at hone
          exact hone hmem
        | none =>
          rw [hthr] at hone
          cases hres : resultThen? h b.ret with
          | none =>
            have hrun : (disposeAsyncRun h (fuel + 1) [.ref id] w).2 =
                pushEvt w1 (Event.capCall id .cdispose none) := by
              simp [disposeAsyncRun, disposeAsyncGo, refId?, heqID, hcls, hthr, hres,
                disposeAsyncGo_nil, asyncJoinD]
            rw [hrun] at hmem
            exact hone hmem
          | some s =>
            have hrun : (disposeAsyncRun h (fuel + 1) [.ref id] w).2 =
                pushEvt w1 (Event.capCall id .cdispose none) := by
              cases s <;>
                simp [disposeAsyncRun, disposeAsyncGo, refId?, heqID, hcls, hthr, hres,
                  disposeAsyncGo_nil, asyncJoinD]
            rw [hrun] at hmem
            exact hone hmem

theorem disposeRun_dispose_invoked (h : Heap) (fuel : Nat) {id : Nat} {n : Nat} {b : MBeh}
    (w : World) (hprop : (getObj h id).isDisposedP = .absent)
    (hdis : (getObj h id).disposeP = .fn n b) :
    Event.capCall id .cdispose b.thr ∈ (disposeRun h (fuel + 1) [.ref id] w).2.trace := by
  cases hthr : b.thr with
  | some e =>
    have hstep := disposeGo_step_throw h fuel [] w hprop hdis (List.not_mem_nil id) hthr
    have hrun : (disposeRun h (fuel + 1) [.ref id] w).2 =
        pushEvt w (Event.capCall id .cdispose (some e)) := by
      simp [disposeRun, hstep]
    rw [hrun, pushEvt_trace]
    exact List.mem_append_right _ (List.mem_singleton.mpr rfl)
  | none =>
    have hstep := disposeGo_step_ok h fuel [] w hprop hdis (List.not_mem_nil id) hthr
    have hrun : (disposeRun h (fuel + 1) [.ref id] w).2 =
        pushEvt w (Event.capCall id .cdispose none) := by
      simp [disposeRun, hstep, disposeGo_nil]
    rw [hrun, pushEvt_trace]
    exact List.mem_append_right _ (List.mem_singleton.mpr rfl)

theorem disposeAsyncRun_dispose_invoked (h : Heap) (fuel : Nat) {id : Nat} {n : Nat} {b : MBeh}
    (w : World) (hprop : (getObj h id).isDisposedP = .absent)
    (hdis : (getObj h id).disposeP = .fn n b) :
    Event.capCall id .cdispose b.thr ∈ (disposeAsyncRun h (fuel + 1) [.ref id] w).2.trace := by
  cases hthr : b.thr with
  | some e =>
    have hstep := disposeAsyncGo_step_throw h fuel [] [] w hprop hdis (List.not_mem_nil id) hthr
    have hrun : (disposeAsyncRun h (fuel + 1) [.ref id] w).2 =
        pushEvt w (Event.capCall id .cdispose (some e)) := by
      simp [disposeAsyncRun, hstep]
    rw [hrun, pushEvt_trace]
    exact List.mem_append_right _ (List.mem_singleton.mpr rfl)
  | none =>
    cases hres : resultThen? h b.ret with
    | none =>
      have hstep := disposeAsyncGo_step_ok h fuel [] [] w hprop hdis (List.not_mem_nil id)
        hthr hres
      have hrun : (disposeAsyncRun h (fuel + 1) [.ref id] w).2 =
          pushEvt w (Event.capCall id .cdispose none) := by
        simp [disposeAsyncRun, hstep, disposeAsyncGo_nil, asyncJoinD]
      rw [hrun, pushEvt_trace]
      exact List.mem_append_right _ (List.mem_singleton.mpr rfl)
    | some s =>
      have hrun : (disposeAsyncRun h (fuel + 1) [.ref id] w).2 =
          pushEvt w (Event.capCall id .cdispose none) := by
        have hcls := (classify_dispose_fn hdis).2
        cases s <;>
          simp [disposeAsyncRun, disposeAsyncGo, refId?, isDisposedRun_absent hprop w, hcls,
            hthr, hres, disposeAsyncGo_nil, asyncJoinD]
      rw [hrun, pushEvt_trace]
      exact List.mem_append_right _ (List.mem_singleton.mpr rfl)

/-! ### Classification chains versus the spec-worded chains -/

theorem classifyAsyncD_eq_spec (o : JSObj) : classifyAsyncD o = classifySpec o := by
  unfold classifyAsyncD classifySpec
  cases hrel : releaseCap? o with
  | some cb =>
    obtain ⟨c, b⟩ := cb
    rfl
  | none =>
    cases hthen : o.thenP with
    | some s => rfl
    | none =>
      cases hiter : o.iterP with
      | some l => rfl
      | none =>
        cases hcall : o.call with
        | some b => rfl
        | none => rfl

theorem classifySyncD_eq_specAmended (o : JSObj) : classifySyncD o = classifySpecSyncAmended o := by
  unfold classifySyncD classifySpecSyncAmended
  cases hrel : releaseCap? o with
  | some cb =>
    obtain ⟨c, b⟩ := cb
    rfl
  | none =>
    cases hiter : o.iterP with
    | some l => rfl
    | none =>
      cases hcall : o.call with
      | some b => rfl
      | none =>
        cases hthen : o.thenP with
        | some s => rfl
        | none => rfl

/-! ### Claim theorems -/

/-- C1: for every top-level call to dispose and to each dispatch variant
(tryDispose, disposeAsync, tryDisposeAsync), and for every object or
function identity, that identity's release capability is invoked at most
once per call, however many times the identity appears directly, nested
in a sequence, or reachable via several sequences; in particular the
scenario dispose of the sequence holding a, a sequence holding a, and a
again releases a exactly once. -/
theorem c1_release_at_most_once :
    (∀ (h : Heap) (fuel : Nat) (q : List JSVal) (w : World), w.trace = [] →
      ∀ id, relCount (disposeRun h fuel q w).2.trace id ≤ 1) ∧
    (∀ (h : Heap) (fuel : Nat) (q : List JSVal) (w : World), w.trace = [] →
      ∀ id, relCount (tryDisposeRun h fuel q w).2.trace id ≤ 1) ∧
    (∀ (h : Heap) (fuel : Nat) (q : List JSVal) (w : World), w.trace = [] →
      ∀ id, relCount (disposeAsyncRun h fuel q w).2.trace id ≤ 1) ∧
    (∀ (h : Heap) (fuel : Nat) (q : List JSVal) (w : World), w.trace = [] →
      ∀ id, relCount (tryDisposeAsyncRun h fuel q w).2.trace id ≤ 1) := by
  refine ⟨?_, ?_, ?_, ?_⟩
  · intro h fuel q w hnil id
    rcases hgo : disposeGo h fuel q [] w with ⟨r, seen2, w2⟩
    have hinv0 : RelInv ([] : List Nat) w.trace := by
      rw [hnil]
      exact relInv_empty
    have hinv := disposeGo_relInv h fuel q [] seen2 r w w2 hgo hinv0
    have h2 : (disposeRun h fuel q w).2 = w2 := by
      simp [disposeRun, hgo]
    rw [h2]
    exact relInv_trace_bound hinv id
  · intro h fuel q w hnil id
    rcases hgo : tryDisposeGo h fuel q [] [] w with ⟨r, seen2, w2⟩
    have hinv0 : RelInv ([] : List Nat) w.trace := by
      rw [hnil]
      exact relInv_empty
    have hinv := tryDisposeGo_relInv h fuel q [] seen2 [] r w w2 hgo hinv0
    have h2 : (tryDisposeRun h fuel q w).2 = w2 := by
      simp [tryDisposeRun, hgo]
    rw [h2]
    exact relInv_trace_bound hinv id
  · intro h fuel q w hnil id
    rcases hgo : disposeAsyncGo h fuel q [] [] w with ⟨r, seen2, tasks2, w2⟩
    have hinv0 : RelInv ([] : List Nat) w.trace := by
      rw [hnil]
      exact relInv_empty
    have hinv := disposeAsyncGo_relInv h fuel q [] seen2 [] tasks2 r w w2 hgo hinv0
    cases r with
    | error e =>
      have h2 : (disposeAsyncRun h fuel q w).2 = w2 := by
        simp [disposeAsyncRun, hgo]
      rw [h2]
      exact relInv_trace_bound hinv id
    | ok u =>
      rcases hj : asyncJoinD h seen2 tasks2 w2 with ⟨e2, w3⟩
      have hext := asyncJoinD_capFreeExt h seen2 tasks2 w2
      rw [hj] at hext
      have h2 : (disposeAsyncRun h fuel q w).2 = w3 := by
        cases e2 <;> simp [disposeAsyncRun, hgo, hj]
      rw [h2]
      exact relInv_trace_bound (relInv_capFreeExt hinv hext) id
  · intro h fuel q w hnil id
    have hinv0 : RelInv ([] : List Nat) w.trace := by
      rw [hnil]
      exact relInv_empty
    exact tryDisposeAsyncRun_relBound h fuel q w hinv0 id

/-- C1 witness: in the scenario, identity 0 appears three times across the
nested sequences yet its dispose capability runs exactly once. -/
theorem c1_witness :
    relCount ((disposeRun hC1 10 [.ref 1] w0).2.trace) 0 ≤ 1 ∧
    relCount ((disposeRun hC1 10 [.ref 1] w0).2.trace) 0 = 1 :=
  ⟨c1_release_at_most_once.1 hC1 10 [.ref 1] w0 rfl 0, by decide⟩

/-- C2 counterexample: an object exposing both an iterator and a then
capability.  The claimed precedence puts pending before sequence, but the
synchronous chain of dispose classifies it as a sequence, and dispose on
it registers no then callback at all. -/
theorem c2_counterexample :
    classifySyncD oC2 ≠ classifySpec oC2 ∧
    classifySyncD oC2 = .sequenceS [] ∧
    classifySpec oC2 = .pendingS (.sok .vundef) ∧
    (disposeRun [oC2] 5 [.ref 0] w0).2.trace = [] := by
  refine ⟨by decide, rfl, rfl, by decide⟩

/-- C2 amended: the claimed precedence (released-marker first, then
dispose, destroy, zero-argument delete, close, then pending, sequence,
factory) is exactly the branch chain of the asynchronous engines; the
synchronous engines order the tail as sequence, factory, pending instead.
In both, the first matching shape wins: an object with a dispose
capability has no other release capability invoked, and dispose itself is
invoked when the object is not already released. -/
theorem c2_precedence_amended :
    (∀ o : JSObj, classifyAsyncD o = classifySpec o) ∧
    (∀ o : JSObj, classifySyncD o = classifySpecSyncAmended o) ∧
    (∀ (h : Heap) (fuel id n : Nat) (b : MBeh) (w : World),
      (getObj h id).disposeP = .fn n b → w.trace = [] →
      ∀ (j : Nat) (c : Cap) (thr : Option Err), c ≠ .cdispose →
        Event.capCall j c thr ∉ (disposeRun h fuel [.ref id] w).2.trace ∧
        Event.capCall j c thr ∉ (disposeAsyncRun h fuel [.ref id] w).2.trace) ∧
    (∀ (h : Heap) (fuel id n : Nat) (b : MBeh) (w : World),
      (getObj h id).isDisposedP = .absent → (getObj h id).disposeP = .fn n b →
      Event.capCall id .cdispose b.thr ∈ (disposeRun h (fuel + 1) [.ref id] w).2.trace ∧
      Event.capCall id .cdispose b.thr ∈ (disposeAsyncRun h (fuel + 1) [.ref id] w).2.trace) := by
  refine ⟨classifyAsyncD_eq_spec, classifySyncD_eq_specAmended, ?_, ?_⟩
  · intro h fuel id n b w hdis hnil j c thr hc
    exact ⟨disposeRun_only_dispose h fuel w hdis hnil j c thr hc,
           disposeAsyncRun_only_dispose h fuel w hdis hnil j c thr hc⟩
  · intro h fuel id n b w hprop hdis
    exact ⟨disposeRun_dispose_invoked h fuel w hprop hdis,
           disposeAsyncRun_dispose_invoked h fuel w hprop hdis⟩

/-- C2 witness: for the object exposing both dispose and destroy, only
dispose is invoked by dispose. -/
theorem c2_witness :
    classifyAsyncD oC2 = classifySpec oC2 ∧
    Event.capCall 0 .cdestroy none ∉ (disposeRun hC2w 5 [.ref 0] w0).2.trace ∧
    Event.capCall 0 .cdispose none ∈ (disposeRun hC2w (4 + 1) [.ref 0] w0).2.trace :=
  ⟨c2_precedence_amended.1 oC2,
   (c2_precedence_amended.2.2.1 hC2w 5 0 0 {} w0 rfl rfl 0 .cdestroy none (by decide)).1,
   (c2_precedence_amended.2.2.2 hC2w 4 0 0 {} w0 rfl rfl).1⟩

/-- C3: in the synchronous fail-fast dispose, a release-capability
invocation that throws makes that exact error propagate to the caller and
ends the scan: the throwing invocation is the last event of the trace, so
no queued candidate after it is dispatched. -/
theorem c3_failfast :
    ∀ (h : Heap) (fuel : Nat) (q : List JSVal) (w : World), w.trace = [] →
    ∀ (t1 : List Event) (id : Nat) (c : Cap) (e : Err) (t2 : List Event),
      (disposeRun h fuel q w).2.trace = t1 ++ Event.capCall id c (some e) :: t2 →
      t2 = [] ∧ (disposeRun h fuel q w).1 = .error e := by
  intro h fuel q w hnil t1 id c e t2 hdec
  rcases hgo : disposeGo h fuel q [] w with ⟨r, seen2, w2⟩
  have hfree : CapThrFree w.trace := by
    rw [hnil]
    intro j cc ee hm
    cases hm
  have h2 : (disposeRun h fuel q w).2 = w2 := by
    simp [disposeRun, hgo]
  rw [h2] at hdec
  obtain ⟨ht2, hr⟩ := disposeGo_thrCap h fuel q [] seen2 r w w2 hgo hfree t1 id c e t2 hdec
  refine ⟨ht2, ?_⟩
  have h1 : (disposeRun h fuel q w).1 = r := by
    simp [disposeRun, hgo]
  rw [h1, hr]

/-- C3 witness: with a first candidate whose dispose throws error 7 and a
second intact candidate, dispose rethrows 7 and never dispatches the
second candidate. -/
theorem c3_witness :
    (([] : List Event) = [] ∧ (disposeRun hC3 10 [.ref 0, .ref 1] w0).1 = .error 7) ∧
    Event.capCall 1 .cdispose none ∉ (disposeRun hC3 10 [.ref 0, .ref 1] w0).2.trace :=
  ⟨c3_failfast hC3 10 [.ref 0, .ref 1] w0 rfl [] 0 .cdispose 7 [] (by decide), by decide⟩

/-- C4: tryDispose never throws; from a clean start each distinct error
identity reaches the configured channel at most once (the once-flag
dedupe); and after a candidate whose release capability throws, the scan
still dispatches the following queued candidate and delivers the error to
the channel. -/
theorem c4_tryDispose_best_effort :
    (∀ (h : Heap) (fuel : Nat) (q : List JSVal) (w : World),
      (tryDisposeRun h fuel q w).1 = .ok ()) ∧
    (∀ (h : Heap) (fuel : Nat) (q : List JSVal) (w : World),
      w.flagged = [] → w.channel = [] →
      (tryDisposeRun h fuel q w).2.channel.Nodup) ∧
    (∀ (h : Heap) (fuel i j ni nj : Nat) (bi bj : MBeh) (e : Err) (w : World),
      (getObj h i).isDisposedP = .absent → (getObj h i).disposeP = .fn ni bi →
      bi.thr = some e →
      (getObj h j).isDisposedP = .absent → (getObj h j).disposeP = .fn nj bj →
      bj.thr = none → bj.ret = .vundef → i ≠ j →
      w.channelSet = true → w.flagged = [] →
      (tryDisposeRun h (fuel + 2) [.ref i, .ref j] w).1 = .ok () ∧
      Event.capCall i .cdispose (some e) ∈
        (tryDisposeRun h (fuel + 2) [.ref i, .ref j] w).2.trace ∧
      Event.capCall j .cdispose none ∈
        (tryDisposeRun h (fuel + 2) [.ref i, .ref j] w).2.trace ∧
      e ∈ (tryDisposeRun h (fuel + 2) [.ref i, .ref j] w).2.channel) := by
  refine ⟨?_, ?_, ?_⟩
  · intro h fuel q w
    rcases hgo : tryDisposeGo h fuel q [] [] w with ⟨r, s2, w2⟩
    have hok := tryDisposeGo_ok h fuel q [] [] w
    rw [hgo] at hok
    simp only at hok
    simp [tryDisposeRun, hgo, hok]
  · intro h fuel q w hf hc
    rcases hgo : tryDisposeGo h fuel q [] [] w with ⟨r, s2, w2⟩
    have hch : ChanInv w := by
      constructor
      · rw [hc]
        exact List.nodup_nil
      · intro e he
        rw [hc] at he
        cases he
    have hinv := tryDisposeGo_chanInv h fuel q [] s2 [] r w w2 hgo hch
    have h2 : (tryDisposeRun h fuel q w).2 = w2 := by
      simp [tryDisposeRun, hgo]
    rw [h2]
    exact hinv.1
  · intro h fuel i j ni nj bi bj e w hii hdi hthri hjj hdj hthrj hretj hij hset hflag
    have hj1 : j ∉ [i] := by
      intro hm
      exact hij (List.mem_singleton.mp hm).symm
    have hres : resultThen? h bj.ret = none := by
      rw [hretj]
      rfl
    have hstep1 := tryDisposeGo_step_throw h (fuel + 1) [.ref j] ([] : List Settle) w
      hii hdi (List.not_mem_nil i) hthri
    have hstep2 := tryDisposeGo_step_ok h fuel ([] : List JSVal) ([] : List Settle)
      (ignoreErrorRun (pushEvt w (.capCall i .cdispose (some e))) e) hjj hdj hj1 hthrj hres
    have hgo : tryDisposeGo h (fuel + 2) [.ref i, .ref j] [] [] w =
        (.ok (), j :: i :: [],
          pushEvt (ignoreErrorRun (pushEvt w (.capCall i .cdispose (some e))) e)
            (.capCall j .cdispose none)) := by
      show tryDisposeGo h (fuel + 1 + 1) [.ref i, .ref j] [] [] w = _
      rw [hstep1, hstep2, tryDisposeGo_nil]
      rfl
    have hrun : tryDisposeRun h (fuel + 2) [.ref i, .ref j] w =
        (.ok (), pushEvt (ignoreErrorRun (pushEvt w (.capCall i .cdispose (some e))) e)
          (.capCall j .cdispose none)) := by
      simp [tryDisposeRun, hgo]
    rw [hrun]
    have htr : (pushEvt (ignoreErrorRun (pushEvt w (.capCall i .cdispose (some e))) e)
        (Event.capCall j .cdispose none)).trace =
        (w.trace ++ [Event.capCall i .cdispose (some e)]) ++ [Event.capCall j .cdispose none] := by
      rw [pushEvt_trace, ignoreErrorRun_trace, pushEvt_trace]
    have hchan : (pushEvt (ignoreErrorRun (pushEvt w (.capCall i .cdispose (some e))) e)
        (Event.capCall j .cdispose none)).channel = w.channel ++ [e] := by
      show (ignoreErrorRun (pushEvt w (.capCall i .cdispose (some e))) e).channel = _
      unfold ignoreErrorRun
      rw [if_pos (show (pushEvt w (.capCall i .cdispose (some e))).channelSet = true from hset)]
      rw [if_neg (show e ∉ (pushEvt w (.capCall i .cdispose (some e))).flagged from by
        show e ∉ w.flagged
        rw [hflag]
        exact List.not_mem_nil e)]
      rfl
    refine ⟨rfl, ?_, ?_, ?_⟩
    · rw [htr]
      exact List.mem_append_left _ (List.mem_append_right _ (List.mem_singleton.mpr rfl))
    · rw [htr]
      exact List.mem_append_right _ (List.mem_singleton.mpr rfl)
    · rw [hchan]
      exact List.mem_append_right _ (List.mem_singleton.mpr rfl)

/-- C4 witness: with candidate 0 throwing error 7 and candidate 1 intact,
tryDispose returns normally, dispatches both, and delivers 7 to the
channel; in the single-candidate spec scenario the channel receives
exactly that error once. -/
theorem c4_witness :
    (tryDisposeRun hC3 10 [.ref 0, .ref 1] w0).1 = .ok () ∧
    (tryDisposeRun hC3 10 [.ref 0, .ref 1] w0).2.channel.Nodup ∧
    (Event.capCall 0 .cdispose (some 7) ∈
        (tryDisposeRun hC3 (8 + 2) [.ref 0, .ref 1] w0).2.trace ∧
      Event.capCall 1 .cdispose none ∈
        (tryDisposeRun hC3 (8 + 2) [.ref 0, .ref 1] w0).2.trace ∧
      7 ∈ (tryDisposeRun hC3 (8 + 2) [.ref 0, .ref 1] w0).2.channel) ∧
    (tryDisposeRun hC8 5 [.ref 0] w0).2.channel = [7] := by
  refine ⟨c4_tryDispose_best_effort.1 hC3 10 [.ref 0, .ref 1] w0,
    c4_tryDispose_best_effort.2.1 hC3 10 [.ref 0, .ref 1] w0 rfl rfl, ?_, by decide⟩
  obtain ⟨_, h1, h2, h3⟩ := c4_tryDispose_best_effort.2.2 hC3 8 0 1 0 0
    { thr := some 7 } {} 7 w0 rfl rfl rfl rfl rfl rfl rfl (by decide) rfl rfl
  exact ⟨h1, h2, h3⟩

/-- C5: evaluation of the claimed scenario on the code.  In
disposeAsync of a factory returning a disposable and a promise resolving
to a second disposable, the promise is awaited (the call resolves only
after it settles) but the enqueue callback registered with then runs only
after the scan loop has finished, so the resolved disposable (identity 4)
is pushed into the dead queue and its dispose is never invoked: the call
fulfils having released only identity 2, contradicting the claimed
outcome that both releases complete. -/
theorem c5_code_evaluation :
    (disposeAsyncRun hC5 10 [.ref 0] w0).1 = .ok () ∧
    (disposeAsyncRun hC5 10 [.ref 0] w0).2.trace =
      [.factoryCall 0 none, .capCall 2 .cdispose none, .thenReg 3] ∧
    relCount (disposeAsyncRun hC5 10 [.ref 0] w0).2.trace 2 = 1 ∧
    relCount (disposeAsyncRun hC5 10 [.ref 0] w0).2.trace 4 = 0 := by
  refine ⟨by decide, by decide, by decide, by decide⟩

/-- C6: a nullish candidate, and a candidate already reporting the
released marker, are no-ops for every dispatch entry point: the call
returns normally and invokes no release capability, in particular
dispose of an object with isDisposed true and a throwing dispose raises
no error and performs no invocation. -/
theorem c6_released_noop :
    (∀ (h : Heap) (fuel : Nat) (w : World),
      disposeRun h fuel [.vnull] w = (.ok (), w) ∧
      disposeRun h fuel [.vundef] w = (.ok (), w) ∧
      tryDisposeRun h fuel [.vnull] w = (.ok (), w) ∧
      tryDisposeRun h fuel [.vundef] w = (.ok (), w) ∧
      disposeAsyncRun h fuel [.vnull] w = (.ok (), w) ∧
      disposeAsyncRun h fuel [.vundef] w = (.ok (), w) ∧
      tryDisposeAsyncRun h fuel [.vnull] w = (.ok (), w) ∧
      tryDisposeAsyncRun h fuel [.vundef] w = (.ok (), w)) ∧
    (∀ (h : Heap) (fuel : Nat) (id : Nat) (w : World), Released (getObj h id) →
      ((disposeRun h fuel [.ref id] w).1 = .ok () ∧
        ∀ j, relCount (disposeRun h fuel [.ref id] w).2.trace j = relCount w.trace j) ∧
      ((tryDisposeRun h fuel [.ref id] w).1 = .ok () ∧
        ∀ j, relCount (tryDisposeRun h fuel [.ref id] w).2.trace j = relCount w.trace j) ∧
      ((disposeAsyncRun h fuel [.ref id] w).1 = .ok () ∧
        ∀ j, relCount (disposeAsyncRun h fuel [.ref id] w).2.trace j = relCount w.trace j) ∧
      ((tryDisposeAsyncRun h fuel [.ref id] w).1 = .ok () ∧
        ∀ j, relCount (tryDisposeAsyncRun h fuel [.ref id] w).2.trace j =
          relCount w.trace j)) := by
  constructor
  · intro h fuel w
    exact ⟨disposeRun_skip h fuel w rfl, disposeRun_skip h fuel w rfl,
      tryDisposeRun_skip h fuel w rfl, tryDisposeRun_skip h fuel w rfl,
      disposeAsyncRun_skip h fuel w rfl, disposeAsyncRun_skip h fuel w rfl,
      tryDisposeAsyncRun_skip h fuel w rfl, tryDisposeAsyncRun_skip h fuel w rfl⟩
  · intro h fuel id w hrel
    exact ⟨disposeRun_released h fuel w hrel, tryDisposeRun_released h fuel w hrel,
      disposeAsyncRun_released h fuel w hrel, tryDisposeAsyncRun_released h fuel w hrel⟩

/-- C6 witness: the object with isDisposed true and a throwing dispose is
skipped by dispose with no error, no invocation, and an unchanged
world. -/
theorem c6_witness :
    (disposeRun hC6 5 [.ref 0] w0).1 = .ok () ∧
    relCount (disposeRun hC6 5 [.ref 0] w0).2.trace 0 = relCount w0.trace 0 ∧
    disposeRun hC6 5 [.ref 0] w0 = (.ok (), w0) := by
  obtain ⟨⟨h1, h2⟩, _, _, _⟩ :=
    (c6_released_noop.2 hC6 5 0 w0 (Or.inl ⟨.vbool true, rfl, rfl⟩))
  exact ⟨h1, h2 0, by decide⟩

/-- C7 counterexample: an object whose isDisposed property is the truthy
non-boolean value 1 is reported disposed by the code, while the claim
says only the boolean true (or a callable returning truthy) counts. -/
theorem c7_counterexample :
    (isDisposedRun hC7 w0 (.ref 0)).1 = .ok true ∧
    isDisposedSpecClaim hC7 (.ref 0) = false := by
  exact ⟨by decide, by decide⟩

/-- C7 amended: isDisposed returns true iff the value is nullish, or its
isDisposed property is a truthy non-function value, or it is a callable
whose (non-throwing) invocation returns a truthy value; a present-but-
falsy property or an absent capability is not disposed. -/
theorem c7_isDisposed_amended :
    ∀ (h : Heap) (w : World) (v : JSVal), NoThrowCheck h v →
      (isDisposedRun h w v).1 = .ok (isDisposedSpecTruthy h v) := by
  intro h w v hnt
  cases v with
  | vnull => rfl
  | vundef => rfl
  | vbool b => rfl
  | vnum nn => rfl
  | ref id =>
    rcases hprop : (getObj h id).isDisposedP with _ | pv | ⟨nn, beh⟩
    · simp [isDisposedRun, isDisposedSpecTruthy, hprop]
    · by_cases ht : truthy pv = true <;>
        simp [isDisposedRun, isDisposedSpecTruthy, hprop, ht]
    · have hthr : beh.thr = none := hnt id nn beh rfl hprop
      simp [isDisposedRun, isDisposedSpecTruthy, hprop, hthr]

/-- C7 witness: for the object with the truthy non-boolean isDisposed
property, the code and the amended predicate agree on true. -/
theorem c7_witness :
    (isDisposedRun hC7 w0 (.ref 0)).1 = .ok (isDisposedSpecTruthy hC7 (.ref 0)) ∧
    isDisposedSpecTruthy hC7 (.ref 0) = true := by
  constructor
  · refine c7_isDisposed_amended hC7 w0 (.ref 0) ?_
    intro id n b hv hp
    injection hv with hid
    subst hid
    rw [show (getObj hC7 0).isDisposedP = .val (.vnum 1) from rfl] at hp
    cases hp
  · decide

/-- C8 counterexample: when the functor returns normally but the
fail-fast release throws error 7, using does not return the functor's
result; the release error propagates instead. -/
theorem c8_counterexample :
    (usingRun hC8 5 (.ref 0) (.ok (.vnum 1)) w0).1 = .error 7 ∧
    (usingRun hC8 5 (.ref 0) (.ok (.vnum 1)) w0).1 ≠ .ok (.vnum 1) := by
  exact ⟨by decide, by decide⟩

/-- C8 amended: when the functor returns normally, using releases the
candidate via the fail-fast dispose and, when that release raises no
error, returns the functor's result; when the functor throws, using
releases the candidate via the best-effort tryDispose and rethrows the
original error, so a functor error E is observed even when the release
also throws. -/
theorem c8_using_amended :
    ∀ (h : Heap) (fuel : Nat) (inst : JSVal) (functor : Except Err JSVal) (w : World),
      (∀ v, functor = .ok v → (disposeRun h fuel [inst] w).1 = .ok () →
        usingRun h fuel inst functor w = (.ok v, (disposeRun h fuel [inst] w).2)) ∧
      (∀ e, functor = .error e →
        (usingRun h fuel inst functor w).1 = .error e ∧
        (usingRun h fuel inst functor w).2 = (tryDisposeRun h fuel [inst] w).2) := by
  intro h fuel inst functor w
  constructor
  · intro v hf hok
    subst hf
    rcases hd : disposeRun h fuel [inst] w with ⟨r, w1⟩
    rw [hd] at hok
    simp only at hok
    subst hok
    simp [usingRun, hd]
  · intro e hf
    subst hf
    rcases ht : tryDisposeRun h fuel [inst] w with ⟨r, w1⟩
    constructor <;> simp [usingRun, ht]

/-- C8 witness: with a nullish candidate the fail-fast release is a no-op
and the result is returned; with the throwing-dispose candidate and a
functor error 5, the caller observes 5 while the release error 7 goes to
the channel. -/
theorem c8_witness :
    usingRun hC8 5 .vnull (.ok (.vnum 1)) w0 = (.ok (.vnum 1), (disposeRun hC8 5 [.vnull] w0).2) ∧
    (usingRun hC8 5 (.ref 0) (.error 5) w0).1 = .error 5 ∧
    (usingRun hC8 5 (.ref 0) (.error 5) w0).2.channel = [7] := by
  refine ⟨(c8_using_amended hC8 5 .vnull (.ok (.vnum 1)) w0).1 (.vnum 1) rfl rfl,
    ((c8_using_amended hC8 5 (.ref 0) (.error 5) w0).2 5 rfl).1, by decide⟩

/-- C9 counterexample: usingAsync releases through the fail-fast
disposeAsync inside finally on both paths; when the functor rejects with
5 and the release throws 7, the caller observes 7, not the original 5,
and nothing reaches the best-effort channel. -/
theorem c9_counterexample :
    (usingAsyncRun hC8 5 (.ref 0) (.error 5) w0).1 = .error 7 ∧
    (usingAsyncRun hC8 5 (.ref 0) (.error 5) w0).1 ≠ .error 5 ∧
    (usingAsyncRun hC8 5 (.ref 0) (.error 5) w0).2.channel = [] := by
  exact ⟨by decide, by decide, by decide⟩

/-- C9 amended: usingAsync first awaits the candidate when it is pending
and invokes it when it is a factory, and guarantees that the fail-fast
async release of the final instance runs before the returned promise
settles on every path; a release rejection replaces the functor's result
or rejection, and when the release fulfils the functor's outcome is
preserved. -/
theorem c9_usingAsync_amended :
    (∀ (h : Heap) (fuel : Nat) (p : Nat) (v : JSVal) (functor : Except Err JSVal) (w : World),
      (getObj h p).thenP = some (.sok v) → awaitVal h v = .ok v →
      usingAsyncRun h fuel (.ref p) functor w = usingAsyncRun h fuel v functor w) ∧
    (∀ (h : Heap) (fid : Nat) (b : MBeh) (r : JSVal) (functor : Except Err JSVal) (w : World),
      (getObj h fid).thenP = none → (getObj h fid).call = some b →
      b.thr = none → awaitVal h b.ret = .ok r →
      usingAsyncBody h (.ref fid) functor w = (functor, r, pushEvt w (.factoryCall fid none))) ∧
    (∀ (h : Heap) (fuel : Nat) (inst0 : JSVal) (functor : Except Err JSVal) (w : World),
      (∀ e2, (disposeAsyncRun h fuel [(usingAsyncBody h inst0 functor w).2.1]
            (usingAsyncBody h inst0 functor w).2.2).1 = .error e2 →
        (usingAsyncRun h fuel inst0 functor w).1 = .error e2) ∧
      ((disposeAsyncRun h fuel [(usingAsyncBody h inst0 functor w).2.1]
            (usingAsyncBody h inst0 functor w).2.2).1 = .ok () →
        usingAsyncRun h fuel inst0 functor w =
          ((usingAsyncBody h inst0 functor w).1,
            (disposeAsyncRun h fuel [(usingAsyncBody h inst0 functor w).2.1]
              (usingAsyncBody h inst0 functor w).2.2).2))) := by
  refine ⟨?_, ?_, ?_⟩
  · intro h fuel p v functor w hthen hv
    have hawait : awaitVal h (.ref p) = .ok v := by
      simp [awaitVal, refId?, hthen]
    unfold usingAsyncRun usingAsyncBody
    rw [hawait, hv]
  · intro h fid b r functor w hthen hcall hbthr hr
    have hawait : awaitVal h (.ref fid) = .ok (.ref fid) := by
      simp [awaitVal, refId?, hthen]
    cases functor <;>
      simp [usingAsyncBody, hawait, refId?, hcall, hbthr, hr]
  · intro h fuel inst0 functor w
    rcases hb : usingAsyncBody h inst0 functor w with ⟨r0, iF, w1⟩
    rcases hd : disposeAsyncRun h fuel [iF] w1 with ⟨rd, w2⟩
    constructor
    · intro e2 he2
      simp only at he2
      subst he2
      simp [usingAsyncRun, hb, hd]
    · intro hok
      simp only at hok
      subst hok
      simp [usingAsyncRun, hb, hd]

/-- C9 witness: the pending candidate is awaited before release, the
factory candidate is invoked, and the release-settlement conjunct applies
at the counterexample heap, where the release rejection 7 is the observed
outcome. -/
theorem c9_witness :
    usingAsyncRun hC9p 5 (.ref 0) (.ok .vundef) w0 = usingAsyncRun hC9p 5 (.ref 1) (.ok .vundef) w0 ∧
    usingAsyncBody hC9f (.ref 0) (.ok .vundef) w0 =
      (.ok .vundef, .ref 1, pushEvt w0 (.factoryCall 0 none)) ∧
    (usingAsyncRun hC8 5 (.ref 0) (.error 5) w0).1 = .error 7 := by
  refine ⟨(c9_usingAsync_amended.1 hC9p 5 0 (.ref 1) (.ok .vundef) w0 rfl rfl),
    (c9_usingAsync_amended.2.1 hC9f 0 { ret := .ref 1 } (.ref 1) (.ok .vundef) w0 rfl rfl rfl rfl),
    ((c9_usingAsync_amended.2.2 hC8 5 (.ref 0) (.error 5) w0).1 7 (by decide))⟩

/-- C10: when the functor returns normally and the fail-fast release of a
not-released candidate throws, using performs a second, best-effort
release of the same candidate, so its dispose capability is invoked
twice within the one using call, and the release error replaces the
functor's result. -/
theorem c10_using_second_release :
    ∀ (h : Heap) (fuel id n : Nat) (b : MBeh) (e2 : Err) (v : JSVal) (w : World),
      (getObj h id).isDisposedP = .absent → (getObj h id).disposeP = .fn n b →
      b.thr = some e2 →
      (usingRun h (fuel + 1) (.ref id) (.ok v) w).1 = .error e2 ∧
      relCount (usingRun h (fuel + 1) (.ref id) (.ok v) w).2.trace id =
        relCount w.trace id + 2 := by
  intro h fuel id n b e2 v w hprop hdis hthr
  have hstepD := disposeGo_step_throw h fuel [] w hprop hdis (List.not_mem_nil id) hthr
  have hd : disposeRun h (fuel + 1) [.ref id] w =
      (.error e2, pushEvt w (.capCall id .cdispose (some e2))) := by
    simp [disposeRun, hstepD]
  have hstepT := tryDisposeGo_step_throw h fuel ([] : List JSVal) ([] : List Settle)
    (pushEvt w (.capCall id .cdispose (some e2))) hprop hdis (List.not_mem_nil id) hthr
  have ht : tryDisposeRun h (fuel + 1) [.ref id] (pushEvt w (.capCall id .cdispose (some e2))) =
      (.ok (), ignoreErrorRun (pushEvt (pushEvt w (.capCall id .cdispose (some e2)))
        (.capCall id .cdispose (some e2))) e2) := by
    simp [tryDisposeRun, hstepT, tryDisposeGo_nil, runDefers]
  have hrun : usingRun h (fuel + 1) (.ref id) (.ok v) w =
      (.error e2, ignoreErrorRun (pushEvt (pushEvt w (.capCall id .cdispose (some e2)))
        (.capCall id .cdispose (some e2))) e2) := by
    simp [usingRun, hd, ht]
  rw [hrun]
  refine ⟨rfl, ?_⟩
  rw [ignoreErrorRun_trace, pushEvt_trace, pushEvt_trace]
  simp [relCount_append, relCount_singleton_cap, relCount, isRelFor]

/-- C10 witness: at the concrete throwing candidate, using returns the
release error 7 and the trace holds two dispose invocations of the same
identity. -/
theorem c10_witness :
    (usingRun hC8 (4 + 1) (.ref 0) (.ok (.vnum 1)) w0).1 = .error 7 ∧
    relCount (usingRun hC8 (4 + 1) (.ref 0) (.ok (.vnum 1)) w0).2.trace 0 =
      relCount w0.trace 0 + 2 :=
  c10_using_second_release hC8 4 0 0 { thr := some 7 } 7 (.vnum 1) w0 rfl rfl rfl

end IDisposableModel
